import Mathlib

/-!
Verification of the `ContentSplitter` service (content-splitter.ts).

Strings are modelled as `List Char` (`Str`).  JavaScript string operations
(`split`, `trim`, `substring`, regular-expression scans) are translated into
executable Lean functions on `Str`.  JS `\s` and `trim` are modelled over the
ASCII whitespace characters (space, tab, newline, carriage return, vertical
tab, form feed); all concrete inputs considered are ASCII.
-/

set_option maxRecDepth 20000

namespace ContentSplitter

abbrev Str := List Char

/-- The backtick character (code 96), used by markdown code fences. -/
def btChar : Char := Char.ofNat 96

/-- JS `\s` / `trim` whitespace, restricted to ASCII. -/
def isWs (c : Char) : Bool :=
  c = ' ' ∨ c = '\t' ∨ c = '\n' ∨ c = '\r' ∨ c = '\x0b' ∨ c = '\x0c'

/-- JS `String.prototype.trim`, left part. -/
def trimL (s : Str) : Str := s.dropWhile isWs

/-- JS `String.prototype.trim`, right part. -/
def trimR (s : Str) : Str := (s.reverse.dropWhile isWs).reverse

/-- JS `String.prototype.trim`. -/
def trim (s : Str) : Str := trimR (trimL s)

/-- JS `str.split(sep)` for a one-character separator: keeps empty pieces,
`"".split` gives `[""]`. -/
def splitSep (sep : Char) : Str → List Str
  | [] => [[]]
  | c :: rest =>
    if c = sep then [] :: splitSep sep rest
    else
      match splitSep sep rest with
      | [] => [[c]]
      | l :: ls => (c :: l) :: ls

/-- JS `str.split('\n')`. -/
def splitLines (s : Str) : List Str := splitSep '\n' s

/-- Prefix test on `Str` (JS `startsWith`). -/
def hasPre : Str → Str → Bool
  | [], _ => true
  | _ :: _, [] => false
  | p :: ps, c :: cs => p = c && hasPre ps cs

/-- Count of non-overlapping occurrences of three consecutive backticks,
as counted by the JS scan with the global fence pattern. -/
def countFences : Str → Nat
  | c :: d :: e :: rest =>
    if c = btChar ∧ d = btChar ∧ e = btChar then countFences rest + 1
    else countFences (d :: e :: rest)
  | _ :: rest => countFences rest
  | [] => 0

/-- `ContentSplitter.hasMatchedCodeBlocks`: the number of fence markers is even. -/
def hasMatchedCodeBlocks (content : Str) : Bool :=
  countFences content % 2 = 0

/-! ### The sanitizer `cleanContentForDiscord` -/

/-- The 53-character strikethrough placeholder used for horizontal rules. -/
def placeholderRule : Str := '~' :: '~' :: (List.replicate 49 ' ' ++ ['~', '~'])

/-- The literal line `* * *`. -/
def star3 : Str := ['*', ' ', '*', ' ', '*']

/-- Frontmatter opener: given text that begins at a line start and starts with
`---`, consume the JS pattern `---\s*\n` (greedy `\s*`, so up to the last
newline of the whitespace run) and return the unconsumed remainder. -/
def fmOpen (s : Str) : Option Str :=
  if hasPre ['-', '-', '-'] s then
    let rest := s.drop 3
    let w := rest.takeWhile isWs
    if w.any (· = '\n') then
      some ((w.reverse.takeWhile (· ≠ '\n')).reverse ++ rest.drop w.length)
    else none
  else none

/-- Lazy scan for the frontmatter closer `\n---\s*\n?`; returns the remainder
after the full match. -/
def fmFindClose : Str → Option Str
  | [] => none
  | c :: rest =>
    if c = '\n' ∧ hasPre ['-', '-', '-'] rest then
      some ((rest.drop 3).drop ((rest.drop 3).takeWhile isWs).length)
    else fmFindClose rest

/-- One attempt of the frontmatter regex anchored at a line start. -/
def fmTryAt (s : Str) : Option Str := do
  let r ← fmOpen s
  fmFindClose r

/-- Scan over line starts: JS `replace(/^---\s*\n[\s\S]*?\n---\s*\n?/m, '')`
removes the first (leftmost, multiline-anchored) match. -/
def fmScan (fuel : Nat) (s : Str) : Str :=
  match fuel with
  | 0 => s
  | fuel + 1 =>
    match fmTryAt s with
    | some rest => rest
    | none =>
      let line := s.takeWhile (· ≠ '\n')
      match s.drop line.length with
      | [] => s
      | _ :: rest' => line ++ '\n' :: fmScan fuel rest'

/-- Frontmatter-removal step of the sanitizer. -/
def fmRemove (s : Str) : Str := fmScan (s.length + 1) s

/-- JS `replace(/^\* \* \*$/gm, placeholder)`. -/
def starReplace (s : Str) : Str :=
  List.intercalate ['\n']
    ((splitLines s).map (fun l => if l = star3 then placeholderRule else l))

mutual

/-- JS `replace(/\n{3,}/g, '\n\n')`: collapse runs of three or more newlines. -/
def collapseNl : Str → Str
  | [] => []
  | [c] => [c]
  | c :: d :: rest =>
    if c = '\n' ∧ d = '\n' then '\n' :: '\n' :: collapseNlSkip rest
    else c :: collapseNl (d :: rest)

/-- Helper of `collapseNl`: drop the remainder of the current newline run. -/
def collapseNlSkip : Str → Str
  | [] => []
  | c :: rest => if c = '\n' then collapseNlSkip rest else c :: collapseNl rest

end

/-- JS `replace(/[ \t]+$/gm, '')`: strip trailing spaces and tabs of each line. -/
def stripTrailWs (s : Str) : Str :=
  List.intercalate ['\n']
    ((splitLines s).map (fun l => (l.reverse.dropWhile (fun c => c = ' ' ∨ c = '\t')).reverse))

/-- `ContentSplitter.cleanContentForDiscord`: frontmatter removal, `* * *`
replacement, newline collapsing, per-line trailing-whitespace stripping, trim. -/
def cleanContentForDiscord (content : Str) : Str :=
  trim (stripTrailWs (collapseNl (starReplace (fmRemove content))))

/-! ### URL resolution -/

/-- The fields of a parsed JS `URL` that `resolveUrl` reads.  URL parsing is a
platform builtin, so a source URL is modelled by its parsed fields. -/
structure UrlBase where
  protocol : Str
  host : Str
  pathname : Str
  href : Str
  deriving DecidableEq

/-- `ContentSplitter.resolveRelativePath`: pop `..` segments (JS `pop` on an
empty array is a no-op), push plain segments, skip empty and `.` segments. -/
def resolveRelativePath (basePath relativePath : Str) : Str :=
  let rel := if hasPre ['.', '/'] relativePath then relativePath.drop 2 else relativePath
  let baseParts := (splitSep '/' basePath).filter (fun part => part ≠ [])
  let parts := (splitSep '/' rel).foldl
    (fun acc part =>
      if part = ['.', '.'] then acc.dropLast
      else if part ≠ [] ∧ part ≠ ['.'] then acc ++ [part]
      else acc)
    baseParts
  '/' :: List.intercalate ['/'] parts

/-- `ContentSplitter.resolveUrl`: dispatch on the shape of the link target. -/
def resolveUrl (url : Str) (baseUrl : UrlBase) : Str :=
  if hasPre ("http://".data) url ∨ hasPre ("https://".data) url then url
  else if hasPre ['/', '/'] url then baseUrl.protocol ++ url
  else if hasPre ['/'] url then baseUrl.protocol ++ '/' :: '/' :: baseUrl.host ++ url
  else if hasPre ['#'] url then baseUrl.href ++ url
  else if hasPre ['?'] url then baseUrl.href ++ url
  else
    let basePath :=
      if baseUrl.pathname.getLast? = some '/' then baseUrl.pathname
      else (baseUrl.pathname.reverse.dropWhile (· ≠ '/')).reverse
    baseUrl.protocol ++ '/' :: '/' :: baseUrl.host ++ resolveRelativePath basePath url

/-- Attempt of the markdown link pattern at the current position: on success
returns the link text, the target, and the remainder. -/
def tryLink (s : Str) : Option (Str × Str × Str) :=
  match s with
  | [] => none
  | c :: rest =>
    if c = '[' then
      let text := rest.takeWhile (· ≠ ']')
      if text = [] then none
      else if hasPre [']', '('] (rest.drop text.length) then
        let r2 := (rest.drop text.length).drop 2
        let url := r2.takeWhile (· ≠ ')')
        if url = [] then none
        else if (r2.drop url.length).head? = some ')' then
          some (text, url, (r2.drop url.length).tail)
        else none
      else none
    else none

/-- Global scan of JS `replace` with the markdown link pattern, rewriting each
match `[text](url)` to `[text](resolveUrl url base)`. -/
def linkScan (fuel : Nat) (base : UrlBase) (s : Str) : Str :=
  match fuel, s with
  | 0, s => s
  | _, [] => []
  | fuel + 1, c :: rest =>
    match tryLink (c :: rest) with
    | some (text, url, r3) =>
      '[' :: text ++ ']' :: '(' :: resolveUrl url base ++ ')' :: linkScan fuel base r3
    | none => c :: linkScan fuel base rest

/-- `ContentSplitter.resolveRelativeLinks`: no-op without a source URL. -/
def resolveRelativeLinks (content : Str) (sourceUrl : Option UrlBase) : Str :=
  match sourceUrl with
  | none => content
  | some base => linkScan (content.length + 1) base content

/-! ### The chunk model -/

/-- The `type` field of a `ContentChunk`. -/
inductive ChunkType where
  | image
  | code
  | paragraph
  | sentence
  | chunk
  deriving DecidableEq

/-- The `ContentChunk` interface (the unused `metadata` field is omitted: the
splitting pipeline never sets it). -/
structure ContentChunk where
  type : ChunkType
  content : Str
  language : Option Str := none
  deriving DecidableEq

/-- The ceiling `MAX_CHUNK_SIZE`. -/
def MAX_CHUNK_SIZE : Nat := 2000

/-- The code-block soft ceiling `MAX_CODE_BLOCK_SIZE`. -/
def MAX_CODE_BLOCK_SIZE : Nat := 1900

/-! ### Sentence and character splitting -/

/-- Scan of JS `split(/(?<=[.!?])\s+(?=[A-Z])/)`: a split point is a maximal
whitespace run directly after `.`, `!` or `?` and directly before an
uppercase letter; the run is consumed. -/
def sentScan (fuel : Nat) (cur : Str) (s : Str) : List Str :=
  match fuel with
  | 0 => [cur ++ s]
  | fuel + 1 =>
    match s with
    | [] => [cur]
    | c :: rest =>
      if c = '.' ∨ c = '!' ∨ c = '?' then
        let w := rest.takeWhile isWs
        let after := rest.drop w.length
        if w ≠ [] ∧ (match after.head? with | some d => decide ('A' ≤ d ∧ d ≤ 'Z') | none => false) = true then
          (cur ++ [c]) :: sentScan fuel [] after
        else sentScan fuel (cur ++ [c]) rest
      else sentScan fuel (cur ++ [c]) rest

/-- `ContentSplitter.splitTextBySentences`. -/
def splitTextBySentences (text : Str) : List Str :=
  (sentScan (text.length + 1) [] text).filter (fun sentence => (trim sentence).length > 0)

/-- The break-point search of `splitByCharacterCount`: the JS loop
`for (i = 2000; i > 1400; i--)` stopping at the first space, newline, `.`
or `!`; defaults to 2000.  The countdown argument `k` encodes `i = 1400 + k`. -/
def findBreakGo (k : Nat) (s : Str) : Nat :=
  match k with
  | 0 => 2000
  | k + 1 =>
    match s.get? (1401 + k) with
    | some c =>
      if c = ' ' ∨ c = '\n' ∨ c = '.' ∨ c = '!' then 1401 + k else findBreakGo k s
    | none => findBreakGo k s

/-- The loop of `ContentSplitter.splitByCharacterCount`. -/
def charSplitGo (fuel : Nat) (remaining : Str) : List ContentChunk :=
  match fuel with
  | 0 => []
  | fuel + 1 =>
    if remaining.length > MAX_CHUNK_SIZE then
      let breakPoint := findBreakGo 600 remaining
      let chunkContent := trim (remaining.take breakPoint)
      (if chunkContent.length > 0 ∧ chunkContent.length ≤ MAX_CHUNK_SIZE then
        [⟨ChunkType.paragraph, chunkContent, none⟩]
       else if chunkContent.length > MAX_CHUNK_SIZE then
        [⟨ChunkType.paragraph, remaining.take MAX_CHUNK_SIZE, none⟩]
       else []) ++ charSplitGo fuel (trim (remaining.drop breakPoint))
    else if remaining ≠ [] then
      if remaining.length ≤ MAX_CHUNK_SIZE then [⟨ChunkType.paragraph, remaining, none⟩]
      else charSplitGo fuel remaining
    else []

/-- `ContentSplitter.splitByCharacterCount`. -/
def splitByCharacterCount (chunk : ContentChunk) : List ContentChunk :=
  charSplitGo (chunk.content.length + 1) chunk.content

/-- The loop of `ContentSplitter.splitLargeCodeBlock`, over the source lines. -/
def codeBlockGo (language : Str) (currentChunk : Str) : List Str → List ContentChunk
  | [] => if currentChunk ≠ [] then [⟨ChunkType.code, currentChunk, some language⟩] else []
  | line :: rest =>
    let testChunk := currentChunk ++ (if currentChunk ≠ [] then '\n' :: line else line)
    if testChunk.length > MAX_CODE_BLOCK_SIZE ∧ currentChunk ≠ [] then
      ⟨ChunkType.code, currentChunk, some language⟩ :: codeBlockGo language line rest
    else codeBlockGo language testChunk rest

/-- `ContentSplitter.splitLargeCodeBlock`: split a code chunk by source lines
(the JS `chunk.language || ''` default collapses a missing tag to `''`). -/
def splitLargeCodeBlock (chunk : ContentChunk) : List ContentChunk :=
  if chunk.type ≠ ChunkType.code then [chunk]
  else codeBlockGo (chunk.language.getD []) [] (splitLines chunk.content)

/-- The per-sentence loop state of `trySplitBySentences`. -/
def sentAccum (state : List ContentChunk × Str) (sentence : Str) : List ContentChunk × Str :=
  let (result, currentChunk) := state
  let testChunk := currentChunk ++ (if currentChunk ≠ [] then ' ' :: sentence else sentence)
  if testChunk.length ≤ MAX_CHUNK_SIZE then (result, testChunk)
  else
    let result' := if currentChunk ≠ [] then
        result ++ [⟨ChunkType.paragraph, trim currentChunk, none⟩] else result
    if sentence.length > MAX_CHUNK_SIZE then
      (result' ++ splitByCharacterCount ⟨ChunkType.paragraph, sentence, none⟩, [])
    else (result', sentence)

/-- `ContentSplitter.trySplitBySentences`. -/
def trySplitBySentences (chunk : ContentChunk) : List ContentChunk :=
  let sentences := splitTextBySentences chunk.content
  if sentences.length ≤ 1 then [chunk]
  else
    let (result0, currentChunk) := sentences.foldl sentAccum ([], [])
    let result :=
      if currentChunk ≠ [] then
        if currentChunk.length > MAX_CHUNK_SIZE then
          result0 ++ splitByCharacterCount ⟨ChunkType.paragraph, currentChunk, none⟩
        else result0 ++ [⟨ChunkType.paragraph, trim currentChunk, none⟩]
      else result0
    let validResult := result.filter (fun c => hasMatchedCodeBlocks c.content)
    if validResult.length ≠ result.length then [chunk]
    else if result.length > 0 then result else [chunk]

/-! ### Markdown structural elements and paragraph splitting -/

/-- Rule characters of the horizontal-rule patterns. -/
def isRc (c : Char) : Bool := c = '-' ∨ c = '*' ∨ c = '_'

/-- JS `/^#{1,6}\s/`: one to six `#` followed by a whitespace character. -/
def headerTest (t : Str) : Bool :=
  let hashes := t.takeWhile (· = '#')
  1 ≤ hashes.length ∧ hashes.length ≤ 6 ∧
    (match (t.drop hashes.length).head? with | some c => isWs c | none => false) = true

mutual

/-- Single-line whole-match test of `/^[-*_](?:\s*[-*_]){2,}$/`: state after a
rule character, `n` rule characters seen so far. -/
def hrAfterRc (n : Nat) : Str → Bool
  | [] => 3 ≤ n
  | c :: rest =>
    if isRc c then hrAfterRc (n + 1) rest
    else if isWs c then hrInWs n rest
    else false

/-- State inside a whitespace run of the single-line horizontal-rule test. -/
def hrInWs (n : Nat) : Str → Bool
  | [] => false
  | c :: rest =>
    if isRc c then hrAfterRc (n + 1) rest
    else if isWs c then hrInWs n rest
    else false

end

/-- Whole-line horizontal-rule test used by `isMarkdownStructuralElement`. -/
def hrLineTest (t : Str) : Bool :=
  match t with
  | c :: rest => isRc c && hrAfterRc 1 rest
  | [] => false

/-- JS `/^\s*\d+\.\s/` on an already trimmed line. -/
def orderedTest (t : Str) : Bool :=
  let digits := t.takeWhile (fun c => '0' ≤ c ∧ c ≤ '9')
  digits ≠ [] ∧
    (match t.drop digits.length with
     | '.' :: d :: _ => isWs d
     | _ => false) = true

/-- `ContentSplitter.isMarkdownStructuralElement`. -/
def isMarkdownStructuralElement (line : Str) : Bool :=
  let t := trim line
  headerTest t ∨ hrLineTest t ∨
    (match t with
     | c :: d :: _ => decide ((c = '-' ∨ c = '*' ∨ c = '+') ∧ isWs d)
     | _ => false) = true ∨
    orderedTest t ∨
    (match t.head? with | some c => c = '>' | none => false) = true ∨
    hasPre ("```".data) t ∨
    (t.filter (· = '|')).length ≥ 2

/-- The loop of `ContentSplitter.splitMarkdownParagraphs`. -/
def mdParasGo : List Str → List Str → List Str
  | [], currentParagraph =>
    if currentParagraph ≠ [] then [List.intercalate ['\n'] currentParagraph] else []
  | line :: rest, currentParagraph =>
    let trimmedLine := trim line
    if isMarkdownStructuralElement trimmedLine then
      (if currentParagraph ≠ [] then [List.intercalate ['\n'] currentParagraph] else []) ++
        line :: mdParasGo rest []
    else if trimmedLine = [] then
      (if currentParagraph ≠ [] then [List.intercalate ['\n'] currentParagraph] else []) ++
        mdParasGo rest []
    else mdParasGo rest (currentParagraph ++ [line])

/-- `ContentSplitter.splitMarkdownParagraphs`. -/
def splitMarkdownParagraphs (content : Str) : List Str :=
  mdParasGo (splitLines content) []

/-- The per-paragraph loop state of `trySplitByParagraphs`. -/
def paraAccum (state : List ContentChunk × Str) (paragraph : Str) : List ContentChunk × Str :=
  let (result, currentChunk) := state
  let trimmedParagraph := trim paragraph
  if trimmedParagraph = [] then (result, currentChunk)
  else
    let testChunk := currentChunk ++ (if currentChunk ≠ [] then '\n' :: '\n' :: trimmedParagraph else trimmedParagraph)
    if testChunk.length ≤ MAX_CHUNK_SIZE then (result, testChunk)
    else
      let result' := if currentChunk ≠ [] then
          result ++ [⟨ChunkType.paragraph, currentChunk, none⟩] else result
      if trimmedParagraph.length > MAX_CHUNK_SIZE then
        (result' ++ splitByCharacterCount ⟨ChunkType.paragraph, trimmedParagraph, none⟩, [])
      else (result', trimmedParagraph)

/-- `ContentSplitter.trySplitByParagraphs`. -/
def trySplitByParagraphs (chunk : ContentChunk) : List ContentChunk :=
  let paragraphs := splitMarkdownParagraphs chunk.content
  if paragraphs.length ≤ 1 then [chunk]
  else
    let (result0, currentChunk) := paragraphs.foldl paraAccum ([], [])
    let result :=
      if currentChunk ≠ [] then
        if currentChunk.length > MAX_CHUNK_SIZE then
          result0 ++ splitByCharacterCount ⟨ChunkType.paragraph, currentChunk, none⟩
        else result0 ++ [⟨ChunkType.paragraph, currentChunk, none⟩]
      else result0
    let validResult := result.filter (fun c => hasMatchedCodeBlocks c.content)
    if validResult.length ≠ result.length then [chunk]
    else if result.length > 0 then result else [chunk]

/-! ### Horizontal-rule splitting (multiline pattern) -/

mutual

/-- Candidate end points of the multiline rule pattern
`/^[-*_](?:\s*[-*_]){2,}$/m`: state directly after a rule character, having
consumed `cons` characters containing `cnt` rule characters.  A candidate is
recorded exactly where the end anchor holds (before a newline or at the end). -/
def hrmGoRc (cons cnt : Nat) : Str → List (Nat × Nat)
  | [] => [(cons, cnt)]
  | c :: rest =>
    (if c = '\n' then [(cons, cnt)] else []) ++
      (if isRc c then hrmGoRc (cons + 1) (cnt + 1) rest
       else if isWs c then hrmGoWs (cons + 1) cnt rest
       else [])

/-- State inside a whitespace run of the multiline rule pattern. -/
def hrmGoWs (cons cnt : Nat) : Str → List (Nat × Nat)
  | [] => []
  | c :: rest =>
    if isRc c then hrmGoRc (cons + 1) (cnt + 1) rest
    else if isWs c then hrmGoWs (cons + 1) cnt rest
    else []

end

/-- Greedy match of the multiline rule pattern at a line start: the longest
candidate with at least three rule characters; returns the match length. -/
def tryHrAt (s : Str) : Option Nat :=
  match s with
  | c :: rest =>
    if isRc c then
      (((hrmGoRc 1 1 rest).filter (fun p => 3 ≤ p.2)).getLast?).map (fun p => p.1)
    else none
  | [] => none

/-- Scan of JS `split` with the multiline rule pattern: pieces between
successive leftmost matches. -/
def hrSplitGo (fuel : Nat) (cur : Str) (atLineStart : Bool) (s : Str) : List Str :=
  match fuel with
  | 0 => [cur ++ s]
  | fuel + 1 =>
    match s with
    | [] => [cur]
    | c :: rest =>
      if atLineStart then
        match tryHrAt s with
        | some len => cur :: hrSplitGo fuel [] false (s.drop len)
        | none => hrSplitGo fuel (cur ++ [c]) (c = '\n') rest
      else hrSplitGo fuel (cur ++ [c]) (c = '\n') rest

/-- Interleave the trimmed nonempty parts with the placeholder-rule chunks,
as in the loop of `trySplitByHorizontalRules`. -/
def hrAssemble : List Str → List ContentChunk
  | [] => []
  | [part] => if trim part ≠ [] then [⟨ChunkType.paragraph, trim part, none⟩] else []
  | part :: rest =>
    (if trim part ≠ [] then [⟨ChunkType.paragraph, trim part, none⟩] else []) ++
      ⟨ChunkType.paragraph, placeholderRule, none⟩ :: hrAssemble rest

/-- `ContentSplitter.trySplitByHorizontalRules`. -/
def trySplitByHorizontalRules (chunk : ContentChunk) : List ContentChunk :=
  let parts := hrSplitGo (chunk.content.length + 1) [] true chunk.content
  if parts.length ≤ 1 then [chunk]
  else hrAssemble parts

/-- `ContentSplitter.splitLargeChunk`: the fallback chain of the oversize-unit
splitter. -/
def splitLargeChunk (chunk : ContentChunk) : List ContentChunk :=
  let horizontalRuleChunks := trySplitByHorizontalRules chunk
  if horizontalRuleChunks.length > 1 then horizontalRuleChunks
  else
    let paragraphChunks := trySplitByParagraphs chunk
    if paragraphChunks.length > 1 then paragraphChunks
    else if chunk.type = ChunkType.code ∧ chunk.content.length > MAX_CODE_BLOCK_SIZE then
      splitLargeCodeBlock chunk
    else if chunk.content.length > MAX_CHUNK_SIZE ∧ (trySplitBySentences chunk).length > 1 then
      trySplitBySentences chunk
    else splitByCharacterCount chunk

/-! ### Atomic decomposition -/

/-- `ContentSplitter.ensureAtomicChunkSize`. -/
def ensureAtomicChunkSize (chunk : ContentChunk) : List ContentChunk :=
  if chunk.content.length ≤ MAX_CHUNK_SIZE then [chunk]
  else if chunk.type = ChunkType.code then splitLargeCodeBlock chunk
  else
    let sentenceChunks := trySplitBySentences chunk
    if sentenceChunks.length > 1 ∧
        sentenceChunks.all (fun c => c.content.length ≤ MAX_CHUNK_SIZE) then
      sentenceChunks
    else splitByCharacterCount chunk

/-- `ContentSplitter.isMajorStructuralBreak`: the last line is a heading. -/
def isMajorStructuralBreak (content : Str) : Bool :=
  headerTest (trim ((splitLines (trim content)).getLast?.getD []))

/-- The line loop of `ContentSplitter.splitTextIntoAtomicChunks`, with the
fence state `(currentChunk, inCodeBlock, codeBlockLanguage)`. -/
def textAtomsGo : List Str → Str → Bool → Str → List ContentChunk
  | [], currentChunk, inCodeBlock, codeBlockLanguage =>
    if trim currentChunk ≠ [] then
      ensureAtomicChunkSize
        ⟨if inCodeBlock then ChunkType.code else ChunkType.paragraph,
         trim currentChunk,
         if inCodeBlock then some codeBlockLanguage else none⟩
    else []
  | line :: rest, currentChunk, inCodeBlock, codeBlockLanguage =>
    if hasPre ("```".data) (trim line) then
      if inCodeBlock then
        ensureAtomicChunkSize
          ⟨ChunkType.code, trim (currentChunk ++ line ++ ['\n']), some codeBlockLanguage⟩ ++
          textAtomsGo rest [] false []
      else
        (if trim currentChunk ≠ [] then
          ensureAtomicChunkSize ⟨ChunkType.paragraph, trim currentChunk, none⟩
         else []) ++
          textAtomsGo rest (line ++ ['\n']) true ((trim line).drop 3)
    else
      let currentChunk' := currentChunk ++ line ++ ['\n']
      if ¬inCodeBlock ∧ trim line = [] ∧ trim currentChunk' ≠ [] ∧
          isMajorStructuralBreak (trim currentChunk') then
        ensureAtomicChunkSize ⟨ChunkType.paragraph, trim currentChunk', none⟩ ++
          textAtomsGo rest [] inCodeBlock codeBlockLanguage
      else textAtomsGo rest currentChunk' inCodeBlock codeBlockLanguage

/-- `ContentSplitter.splitTextIntoAtomicChunks`. -/
def splitTextIntoAtomicChunks (text : Str) : List ContentChunk :=
  textAtomsGo (splitLines text) [] false []

/-- Attempt of the markdown image pattern `![alt](url)` at the current
position: on success returns the whole match and the remainder. -/
def tryImg (s : Str) : Option (Str × Str) :=
  if hasPre ['!', '['] s then
    let r := s.drop 2
    let alt := r.takeWhile (· ≠ ']')
    if hasPre [']', '('] (r.drop alt.length) then
      let r2 := (r.drop alt.length).drop 2
      let url := r2.takeWhile (· ≠ ')')
      if url = [] then none
      else if (r2.drop url.length).head? = some ')' then
        some ('!' :: '[' :: (alt ++ ']' :: '(' :: (url ++ [')'])), (r2.drop url.length).tail)
      else none
    else none
  else none

/-- The global image scan of `ContentSplitter.splitIntoAtomicChunks`:
`pending` is the text accumulated since the previous image match. -/
def imageScanGo (fuel : Nat) (pending : Str) (s : Str) : List ContentChunk :=
  match fuel with
  | 0 => []
  | fuel + 1 =>
    match s with
    | [] => if trim pending ≠ [] then splitTextIntoAtomicChunks (trim pending) else []
    | c :: rest =>
      match tryImg s with
      | some (m, r3) =>
        (if trim pending ≠ [] then splitTextIntoAtomicChunks (trim pending) else []) ++
          ⟨ChunkType.image, m, none⟩ :: imageScanGo fuel [] r3
      | none => imageScanGo fuel (pending ++ [c]) rest

/-- `ContentSplitter.splitIntoAtomicChunks`. -/
def splitIntoAtomicChunks (content : Str) : List ContentChunk :=
  imageScanGo (content.length + 1) [] content

/-! ### Recombination -/

/-- The extension loop of `ContentSplitter.findOptimalTextGroup`: returns the
grouped chunk and the unconsumed suffix. -/
def findGroupGo (currentContent : Str) (best : ContentChunk) :
    List ContentChunk → ContentChunk × List ContentChunk
  | [] => (best, [])
  | c :: rest =>
    if c.type = ChunkType.image then (best, c :: rest)
    else
      let testContent := currentContent ++ '\n' :: '\n' :: c.content
      if testContent.length > MAX_CHUNK_SIZE then (best, c :: rest)
      else if ¬hasMatchedCodeBlocks testContent then (best, c :: rest)
      else findGroupGo testContent ⟨ChunkType.paragraph, trim testContent, none⟩ rest

/-- The walk of `ContentSplitter.optimalRecombine`. -/
def optimalRecombineGo (fuel : Nat) (l : List ContentChunk) : List ContentChunk :=
  match fuel with
  | 0 => []
  | fuel + 1 =>
    match l with
    | [] => []
    | c :: rest =>
      if c.type = ChunkType.image then c :: optimalRecombineGo fuel rest
      else
        let g := findGroupGo c.content c rest
        g.1 :: optimalRecombineGo fuel g.2

/-- `ContentSplitter.optimalRecombine`. -/
def optimalRecombine (atomicChunks : List ContentChunk) : List ContentChunk :=
  optimalRecombineGo (atomicChunks.length + 1) atomicChunks

/-- `ContentSplitter.intelligentSplit`. -/
def intelligentSplit (content : Str) (sourceUrl : Option UrlBase) : List ContentChunk :=
  optimalRecombine
    (splitIntoAtomicChunks (cleanContentForDiscord (resolveRelativeLinks content sourceUrl)))

/-- `ContentSplitter.splitContent`: the public entry point. -/
def splitContent (content : Str) (sourceUrl : Option UrlBase := none) : List ContentChunk :=
  intelligentSplit content sourceUrl

/-! ### Derived notions used to state the claims -/

/-- The successive matches of the markdown image pattern, exactly as the
scan of `splitIntoAtomicChunks` visits them. -/
def imgMatchesGo (fuel : Nat) (s : Str) : List Str :=
  match fuel with
  | 0 => []
  | fuel + 1 =>
    match s with
    | [] => []
    | _ :: rest =>
      match tryImg s with
      | some (m, r3) => m :: imgMatchesGo fuel r3
      | none => imgMatchesGo fuel rest

/-- The list of markdown image references occurring in a string. -/
def imgMatches (s : Str) : List Str := imgMatchesGo (s.length + 1) s

/-- Three consecutive occurrences of the character `x` somewhere in the
string (sliding-window scan). -/
def hasTriple (x : Char) : Str → Bool
  | c :: d :: e :: rest => decide (c = x ∧ d = x ∧ e = x) || hasTriple x (d :: e :: rest)
  | _ => false

/-- Length of the blank-line join of chunk contents, as built by the
extension loop of `findOptimalTextGroup`. -/
def packLen : List ContentChunk → Nat
  | [] => 0
  | [c] => c.content.length
  | c :: rest => c.content.length + 2 + packLen rest

/-- No space or tab stands immediately before a newline or at the end of
the string (every line is free of trailing spaces and tabs). -/
def noTrailST : Str → Bool
  | [] => true
  | [c] => !(c = ' ' || c = '\t')
  | c :: d :: rest => (!(c = ' ' || c = '\t') || !(d = '\n')) && noTrailST (d :: rest)

/-! ### Generic lemmas about the string primitives -/

theorem splitSep_no_sep {sep : Char} {s : Str} (h : ∀ c ∈ s, c ≠ sep) :
    splitSep sep s = [s] := by
  induction s with
  | nil => rfl
  | cons c rest ih =>
    have hc : c ≠ sep := h c (by simp)
    have := ih (fun d hd => h d (by simp [hd]))
    simp only [splitSep, if_neg hc, this]

theorem intercalate_nil (s : Str) : List.intercalate s ([] : List Str) = [] := rfl

theorem intercalate_single (s x : Str) : List.intercalate s [x] = x := by
  simp [List.intercalate]

theorem intercalate_cons₂ (s x y : Str) (L : List Str) :
    List.intercalate s (x :: y :: L) = x ++ s ++ List.intercalate s (y :: L) := by
  simp [List.intercalate]

theorem splitSep_ne_nil (sep : Char) (s : Str) : splitSep sep s ≠ [] := by
  cases s with
  | nil => simp [splitSep]
  | cons c rest =>
    by_cases hc : c = sep
    · simp [splitSep, hc]
    · simp only [splitSep, if_neg hc]
      cases h : splitSep sep rest <;> simp

theorem splitSep_cons_of_ne {sep c : Char} (rest : Str) (hc : c ≠ sep) {l : Str}
    {ls : List Str} (h : splitSep sep rest = l :: ls) :
    splitSep sep (c :: rest) = (c :: l) :: ls := by
  simp [splitSep, if_neg hc, h]

theorem splitSep_append_cons {sep : Char} {x r : Str} (h : ∀ c ∈ x, c ≠ sep) :
    splitSep sep (x ++ sep :: r) = x :: splitSep sep r := by
  induction x with
  | nil => simp [splitSep]
  | cons c rest ih =>
    have hc : c ≠ sep := h c (by simp)
    have hrec := ih (fun d hd => h d (by simp [hd]))
    rw [List.cons_append, splitSep_cons_of_ne _ hc hrec]

theorem splitSep_intercalate {sep : Char} {L : List Str} (hne : L ≠ [])
    (h : ∀ p ∈ L, ∀ c ∈ p, c ≠ sep) :
    splitSep sep (List.intercalate [sep] L) = L := by
  induction L with
  | nil => exact absurd rfl hne
  | cons x L' ih =>
    cases L' with
    | nil =>
      simpa [intercalate_single] using splitSep_no_sep (h x (by simp))
    | cons y L'' =>
      have hx : ∀ c ∈ x, c ≠ sep := h x (by simp)
      have hrest : ∀ p ∈ y :: L'', ∀ c ∈ p, c ≠ sep := fun p hp => h p (by simp [hp])
      have hrec := ih (by simp) hrest
      rw [intercalate_cons₂, List.append_assoc, List.singleton_append,
        splitSep_append_cons hx, hrec]

theorem intercalate_splitSep (sep : Char) (s : Str) :
    List.intercalate [sep] (splitSep sep s) = s := by
  induction s with
  | nil => rfl
  | cons c rest ih =>
    rcases hsp : splitSep sep rest with _ | ⟨l, ls⟩
    · exact absurd hsp (splitSep_ne_nil sep rest)
    rw [hsp] at ih
    by_cases hc : c = sep
    · subst hc
      have h1 : splitSep c (c :: rest) = [] :: l :: ls := by
        simp [splitSep, hsp]
      rw [h1, intercalate_cons₂, List.nil_append, List.singleton_append, ih]
    · rw [splitSep_cons_of_ne _ hc hsp]
      cases ls with
      | nil =>
        rw [intercalate_single] at ih
        rw [intercalate_single, ih]
      | cons m ms =>
        rw [intercalate_cons₂] at ih ⊢
        rw [List.cons_append, List.cons_append, ih]

/-! ### Membership and identity lemmas for the sanitizer stages -/

theorem hasTriple_mem {x : Char} : ∀ {s : Str}, hasTriple x s = true → x ∈ s := by
  intro s
  induction s with
  | nil => intro h; simp [hasTriple] at h
  | cons c rest ih =>
    intro h
    match rest, h with
    | [], h => simp [hasTriple] at h
    | [d], h => simp [hasTriple] at h
    | d :: e :: r, h =>
      rw [hasTriple, Bool.or_eq_true, decide_eq_true_eq] at h
      rcases h with ⟨h1, _, _⟩ | h2
      · simp [h1]
      · exact List.mem_cons_of_mem c (ih h2)

theorem hasTriple_cons {x c : Char} {s : Str} (h : hasTriple x s = true) :
    hasTriple x (c :: s) = true := by
  match s, h with
  | d :: e :: r, h => rw [hasTriple, Bool.or_eq_true]; exact Or.inr h
  | [d], h => simp [hasTriple] at h
  | [], h => simp [hasTriple] at h

theorem hasTriple_append_left {x : Char} (a : Str) {s : Str} (h : hasTriple x s = true) :
    hasTriple x (a ++ s) = true := by
  induction a with
  | nil => exact h
  | cons c a' ih => exact hasTriple_cons ih

theorem hasPre_three {c : Char} {s : Str} (h : hasPre [c, c, c] s = true) :
    hasTriple c s = true := by
  match s with
  | d :: e :: f :: r =>
    simp only [hasPre, Bool.and_eq_true, decide_eq_true_eq] at h
    obtain ⟨h1, h2, h3, _⟩ := h
    subst h1; subst h2; subst h3
    rw [hasTriple]
    simp
  | [] => simp [hasPre] at h
  | [d] => simp [hasPre] at h
  | [d, e] => simp [hasPre] at h

theorem fmTryAt_eq_none {s : Str} (h : hasTriple '-' s = false) : fmTryAt s = none := by
  have hpre : hasPre ['-', '-', '-'] s = false := by
    cases hp : hasPre ['-', '-', '-'] s
    · rfl
    · rw [hasPre_three hp] at h; cases h
  unfold fmTryAt fmOpen
  simp [hpre]

theorem dropWhile_head_false {p : Char → Bool} : ∀ {s : Str} {c : Char} {r : Str},
    s.dropWhile p = c :: r → p c = false := by
  intro s
  induction s with
  | nil => intro c r h; simp [List.dropWhile] at h
  | cons d rest ih =>
    intro c r h
    rw [List.dropWhile] at h
    cases hp : p d with
    | true => rw [hp] at h; exact ih h
    | false => rw [hp] at h; cases h; exact hp

theorem drop_len_takeWhile (p : Char → Bool) (s : Str) :
    s.drop (s.takeWhile p).length = s.dropWhile p := by
  induction s with
  | nil => rfl
  | cons c rest ih =>
    rw [List.takeWhile, List.dropWhile]
    cases hp : p c with
    | true => simpa using ih
    | false => simp

theorem fmScan_eq_self_aux :
    ∀ (n : Nat) (s : Str), s.length ≤ n → hasTriple '-' s = false →
      ∀ fuel, fmScan fuel s = s := by
  intro n
  induction n with
  | zero =>
    intro s hlen h fuel
    have hs : s = [] := List.length_eq_zero.mp (Nat.le_zero.mp hlen)
    subst hs
    cases fuel with
    | zero => rfl
    | succ fuel => rw [fmScan, fmTryAt_eq_none h]; rfl
  | succ n ih =>
    intro s hlen h fuel
    cases fuel with
    | zero => rfl
    | succ fuel =>
      rw [fmScan, fmTryAt_eq_none h]
      dsimp only
      rw [drop_len_takeWhile]
      cases hd : s.dropWhile (fun c => decide (c ≠ '\n')) with
      | nil => rfl
      | cons c rest' =>
        have hc : c = '\n' := by
          have := dropWhile_head_false hd
          simpa using this
        subst hc
        have hsplit : s.takeWhile (fun c => decide (c ≠ '\n')) ++ '\n' :: rest' = s := by
          rw [← hd]; exact List.takeWhile_append_dropWhile _ _
        have hrest : hasTriple '-' rest' = false := by
          cases hr : hasTriple '-' rest'
          · rfl
          · rw [← hsplit] at h
            rw [hasTriple_append_left _ (hasTriple_cons hr)] at h
            cases h
        have hle : rest'.length ≤ n := by
          have : (s.takeWhile (fun c => decide (c ≠ '\n')) ++ '\n' :: rest').length ≤ n + 1 := by
            rw [hsplit]; exact hlen
          simp only [List.length_append, List.length_cons] at this
          omega
        dsimp only
        rw [ih rest' hle hrest fuel, hsplit]

theorem fmScan_eq_self {s : Str} (h : hasTriple '-' s = false) :
    ∀ fuel, fmScan fuel s = s :=
  fmScan_eq_self_aux s.length s (Nat.le_refl _) h

theorem fmRemove_eq_self {s : Str} (h : hasTriple '-' s = false) : fmRemove s = s :=
  fmScan_eq_self h _

/-- Lines of a string all distinct from `* * *` make `starReplace` a no-op. -/
theorem starReplace_eq_self {s : Str} (h : ∀ l ∈ splitLines s, l ≠ star3) :
    starReplace s = s := by
  unfold starReplace
  rw [List.map_congr_left (fun l hl => if_neg (h l hl)), List.map_id']
  exact intercalate_splitSep '\n' s

theorem collapseNl_cons_ne {c : Char} (rest : Str) (hc : c ≠ '\n') :
    collapseNl (c :: rest) = c :: collapseNl rest := by
  cases rest with
  | nil => rfl
  | cons d r => rw [collapseNl, if_neg (by simp [hc])]

theorem collapseNlSkip_eq (s : Str) :
    collapseNlSkip s = collapseNl (s.dropWhile (· = '\n')) := by
  induction s with
  | nil => rfl
  | cons c rest ih =>
    by_cases hc : c = '\n'
    · rw [collapseNlSkip, if_pos hc, ih, List.dropWhile_cons, if_pos (by simp [hc])]
    · rw [collapseNlSkip, if_neg hc, List.dropWhile_cons, if_neg (by simp [hc]),
        collapseNl_cons_ne rest hc]

theorem mem_collapseNl_aux :
    ∀ (n : Nat) (s : Str), s.length ≤ n → ∀ {c : Char}, c ∈ collapseNl s → c ∈ s := by
  intro n
  induction n with
  | zero =>
    intro s hlen c hc
    have hs : s = [] := List.length_eq_zero.mp (Nat.le_zero.mp hlen)
    subst hs
    simp [collapseNl] at hc
  | succ n ih =>
    intro s hlen c hc
    match s with
    | [] => simp [collapseNl] at hc
    | [d] => simpa [collapseNl] using hc
    | d :: e :: rest =>
      rw [collapseNl] at hc
      by_cases hde : d = '\n' ∧ e = '\n'
      · rw [if_pos hde, collapseNlSkip_eq] at hc
        rcases List.mem_cons.mp hc with h1 | hc
        · simp [h1, hde.1]
        rcases List.mem_cons.mp hc with h2 | hc'
        · simp [h2, hde.2]
        · have hlen' : (rest.dropWhile (· = '\n')).length ≤ n := by
            have h1 : (rest.dropWhile (· = '\n')).length ≤ rest.length :=
              (List.dropWhile_sublist _).length_le
            simp only [List.length_cons] at hlen
            omega
          have := ih _ hlen' hc'
          exact List.mem_cons_of_mem d (List.mem_cons_of_mem e
            ((List.dropWhile_sublist _).subset this))
      · rw [if_neg hde] at hc
        rcases List.mem_cons.mp hc with h1 | hc'
        · simp [h1]
        · have hlen' : (e :: rest).length ≤ n := by
            simp only [List.length_cons] at hlen ⊢
            omega
          exact List.mem_cons_of_mem d (ih _ hlen' hc')

theorem mem_collapseNl {s : Str} {c : Char} (hc : c ∈ collapseNl s) : c ∈ s :=
  mem_collapseNl_aux s.length s (Nat.le_refl _) hc

theorem mem_line_of_mem_splitSep {sep : Char} {s p : Str} {c : Char}
    (hp : p ∈ splitSep sep s) (hc : c ∈ p) : c ∈ s := by
  have key : ∀ L : List Str, p ∈ L → c ∈ List.intercalate [sep] L := by
    intro L
    induction L with
    | nil => intro h; cases h
    | cons x L' ihL =>
      intro h
      cases L' with
      | nil =>
        rw [List.mem_singleton] at h
        subst h
        rwa [intercalate_single]
      | cons y L'' =>
        rw [intercalate_cons₂]
        rcases List.mem_cons.mp h with h | h
        · subst h
          exact List.mem_append_left _ (List.mem_append_left _ hc)
        · exact List.mem_append_right _ (ihL h)
  have := key _ hp
  rwa [intercalate_splitSep] at this

theorem mem_stripTrailWs {s : Str} {c : Char} (hc : c ∈ stripTrailWs s) :
    c ∈ s ∨ c = '\n' := by
  unfold stripTrailWs at hc
  have key : ∀ L : List Str, c ∈ List.intercalate ['\n'] L →
      c = '\n' ∨ ∃ p ∈ L, c ∈ p := by
    intro L
    induction L with
    | nil => intro h; cases h
    | cons x L' ihL =>
      intro h
      cases L' with
      | nil =>
        rw [intercalate_single] at h
        exact Or.inr ⟨x, by simp, h⟩
      | cons y L'' =>
        rw [intercalate_cons₂] at h
        rcases List.mem_append.mp h with h | h
        · rcases List.mem_append.mp h with h | h
          · exact Or.inr ⟨x, by simp, h⟩
          · rw [List.mem_singleton] at h; exact Or.inl h
        · rcases ihL h with h | ⟨p, hp, hcp⟩
          · exact Or.inl h
          · exact Or.inr ⟨p, by simp [hp], hcp⟩
  rcases key _ hc with h | ⟨p, hp, hcp⟩
  · exact Or.inr h
  · rcases List.mem_map.mp hp with ⟨l, hl, rfl⟩
    have hcl : c ∈ l := by
      have h1 : c ∈ l.reverse.dropWhile (fun c => decide (c = ' ' ∨ c = '\t')) := by
        simpa using hcp
      have h2 := (List.dropWhile_sublist _).subset h1
      simpa using h2
    exact Or.inl (mem_line_of_mem_splitSep hl hcl)

theorem trim_eq_nil_of_ws {s : Str} (h : ∀ c ∈ s, isWs c = true) : trim s = [] := by
  unfold trim trimL trimR
  have : s.dropWhile isWs = [] := List.dropWhile_eq_nil_iff.mpr h
  simp [this]

/-! ### Claim C10: whitespace-only input yields no chunks -/

theorem tryLink_not_lbracket {c : Char} {rest : Str} (h : c ≠ '[') :
    tryLink (c :: rest) = none := by
  simp [tryLink, h]

theorem linkScan_ws {base : UrlBase} :
    ∀ (fuel : Nat) {s : Str}, (∀ c ∈ s, isWs c = true) → linkScan fuel base s = s := by
  intro fuel
  induction fuel with
  | zero => intro s _; cases s <;> rfl
  | succ fuel ih =>
    intro s hs
    cases s with
    | nil => rfl
    | cons c rest =>
      have hc : c ≠ '[' := by
        intro hc
        have := hs c (by simp)
        rw [hc] at this
        simp [isWs] at this
      rw [linkScan, tryLink_not_lbracket hc, ih (fun d hd => hs d (by simp [hd]))]

theorem wsOnly_clean_eq_nil {s : Str} (h : ∀ c ∈ s, isWs c = true) :
    cleanContentForDiscord s = [] := by
  unfold cleanContentForDiscord
  have hdash : hasTriple '-' s = false := by
    cases hd : hasTriple '-' s
    · rfl
    · have := h '-' (hasTriple_mem hd)
      simp [isWs] at this
  rw [fmRemove_eq_self hdash]
  rw [starReplace_eq_self (fun l hl hstar => by
    have : '*' ∈ s := mem_line_of_mem_splitSep hl (by rw [hstar]; simp [star3])
    have := h '*' this
    simp [isWs] at this)]
  apply trim_eq_nil_of_ws
  intro c hc
  rcases mem_stripTrailWs hc with hc' | hc'
  · exact h c (mem_collapseNl hc')
  · rw [hc']; rfl

/-- C10: for every input that is empty or consists only of whitespace, and for
every optional source URL, `splitContent` returns the empty chunk list. -/
theorem C10_whitespace_empty_output (s : Str) (sourceUrl : Option UrlBase)
    (h : ∀ c ∈ s, isWs c = true) : splitContent s sourceUrl = [] := by
  unfold splitContent intelligentSplit
  have hres : resolveRelativeLinks s sourceUrl = s := by
    cases sourceUrl with
    | none => rfl
    | some base => exact linkScan_ws _ h
  rw [hres, wsOnly_clean_eq_nil h]
  rfl

theorem C10_whitespace_empty_output_witness :
    splitContent ("  \n\t ".data) none = [] :=
  C10_whitespace_empty_output ("  \n\t ".data) none (by decide)

/-! ### Size and kind invariants of the splitting pipeline -/

theorem trim_length_le (s : Str) : (trim s).length ≤ s.length := by
  unfold trim trimL trimR
  calc ((s.dropWhile isWs).reverse.dropWhile isWs).reverse.length
      = ((s.dropWhile isWs).reverse.dropWhile isWs).length := List.length_reverse _
    _ ≤ (s.dropWhile isWs).reverse.length := (List.dropWhile_sublist _).length_le
    _ = (s.dropWhile isWs).length := List.length_reverse _
    _ ≤ s.length := (List.dropWhile_sublist _).length_le

theorem splitSep_mem_no_sep {sep : Char} :
    ∀ {s : Str} {l : Str}, l ∈ splitSep sep s → sep ∉ l := by
  intro s
  induction s with
  | nil =>
    intro l hl
    rw [show splitSep sep [] = [[]] from rfl, List.mem_singleton] at hl
    subst hl; simp
  | cons c rest ih =>
    intro l hl
    by_cases hc : c = sep
    · rw [show splitSep sep (c :: rest) = [] :: splitSep sep rest by
        simp [splitSep, hc]] at hl
      rcases List.mem_cons.mp hl with h | h
      · subst h; simp
      · exact ih h
    · rcases hsp : splitSep sep rest with _ | ⟨m, ms⟩
      · exact absurd hsp (splitSep_ne_nil sep rest)
      rw [splitSep_cons_of_ne _ hc hsp] at hl
      rcases List.mem_cons.mp hl with h | h
      · subst h
        intro hmem
        rcases List.mem_cons.mp hmem with h' | h'
        · exact hc h'.symm
        · exact ih (hsp ▸ List.mem_cons_self m ms) h'
      · exact ih (hsp ▸ List.mem_cons_of_mem m h)

/-- The invariant of claim C1: a chunk is within the ceiling unless it is an
image chunk or a single-line (unsplittable) code chunk. -/
def sizeOk (c : ContentChunk) : Prop :=
  c.content.length ≤ MAX_CHUNK_SIZE ∨ c.type = ChunkType.image ∨
    (c.type = ChunkType.code ∧ '\n' ∉ c.content)

theorem charSplitGo_bounds :
    ∀ (fuel : Nat) (remaining : Str) {c : ContentChunk}, c ∈ charSplitGo fuel remaining →
      c.content.length ≤ MAX_CHUNK_SIZE ∧ c.type = ChunkType.paragraph := by
  intro fuel
  induction fuel with
  | zero => intro remaining c hc; simp [charSplitGo] at hc
  | succ fuel ih =>
    intro remaining c hc
    rw [charSplitGo] at hc
    by_cases h1 : remaining.length > MAX_CHUNK_SIZE
    · rw [if_pos h1] at hc
      rcases List.mem_append.mp hc with hc | hc
      · by_cases h2 : (trim (remaining.take (findBreakGo 600 remaining))).length > 0 ∧
            (trim (remaining.take (findBreakGo 600 remaining))).length ≤ MAX_CHUNK_SIZE
        · rw [if_pos h2] at hc
          rw [List.mem_singleton] at hc
          subst hc
          exact ⟨h2.2, rfl⟩
        · rw [if_neg h2] at hc
          by_cases h3 : (trim (remaining.take (findBreakGo 600 remaining))).length > MAX_CHUNK_SIZE
          · rw [if_pos h3, List.mem_singleton] at hc
            subst hc
            exact ⟨List.length_take_le MAX_CHUNK_SIZE remaining, rfl⟩
          · rw [if_neg h3] at hc
            simp at hc
      · exact ih _ hc
    · rw [if_neg h1] at hc
      by_cases h2 : remaining ≠ []
      · rw [if_pos h2] at hc
        by_cases h3 : remaining.length ≤ MAX_CHUNK_SIZE
        · rw [if_pos h3, List.mem_singleton] at hc
          subst hc
          exact ⟨h3, rfl⟩
        · rw [if_neg h3] at hc
          exact ih _ hc
      · rw [if_neg h2] at hc
        simp at hc

theorem splitByCharacterCount_bounds {c₀ c : ContentChunk}
    (hc : c ∈ splitByCharacterCount c₀) :
    c.content.length ≤ MAX_CHUNK_SIZE ∧ c.type = ChunkType.paragraph :=
  charSplitGo_bounds _ _ hc

theorem codeBlockGo_bounds :
    ∀ (lines : List Str) (language currentChunk : Str),
      (currentChunk.length ≤ MAX_CODE_BLOCK_SIZE ∨ '\n' ∉ currentChunk) →
      (∀ l ∈ lines, '\n' ∉ l) →
      ∀ {c : ContentChunk}, c ∈ codeBlockGo language currentChunk lines →
        (c.content.length ≤ MAX_CODE_BLOCK_SIZE ∨ '\n' ∉ c.content) ∧
          c.type = ChunkType.code := by
  intro lines
  induction lines with
  | nil =>
    intro language currentChunk hcur _ c hc
    rw [codeBlockGo] at hc
    by_cases h : currentChunk ≠ []
    · rw [if_pos h, List.mem_singleton] at hc
      subst hc
      exact ⟨hcur, rfl⟩
    · rw [if_neg h] at hc
      simp at hc
  | cons line rest ih =>
    intro language currentChunk hcur hlines c hc
    rw [codeBlockGo] at hc
    by_cases h : (currentChunk ++
        (if currentChunk ≠ [] then '\n' :: line else line)).length > MAX_CODE_BLOCK_SIZE ∧
        currentChunk ≠ []
    · rw [if_pos h] at hc
      rcases List.mem_cons.mp hc with hc | hc
      · subst hc
        exact ⟨hcur, rfl⟩
      · exact ih language line (Or.inr (hlines line (by simp)))
          (fun l hl => hlines l (by simp [hl])) hc
    · rw [if_neg h] at hc
      rcases Decidable.not_and_iff_or_not.mp h with h' | h'
      · exact ih language _ (Or.inl (by omega))
          (fun l hl => hlines l (by simp [hl])) hc
      · have hnil : currentChunk = [] := Decidable.not_not.mp h'
        subst hnil
        rw [if_neg (by simp), List.nil_append] at hc
        exact ih language line (Or.inr (hlines line (by simp)))
          (fun l hl => hlines l (by simp [hl])) hc

theorem splitLargeCodeBlock_bounds {c₀ c : ContentChunk}
    (hc : c ∈ splitLargeCodeBlock c₀) :
    c = c₀ ∨ ((c.content.length ≤ MAX_CODE_BLOCK_SIZE ∨ '\n' ∉ c.content) ∧
      c.type = ChunkType.code) := by
  unfold splitLargeCodeBlock at hc
  by_cases h : c₀.type ≠ ChunkType.code
  · rw [if_pos h, List.mem_singleton] at hc
    exact Or.inl hc
  · rw [if_neg h] at hc
    exact Or.inr (codeBlockGo_bounds _ _ _ (Or.inl (by simp [MAX_CODE_BLOCK_SIZE]))
      (fun l hl => splitSep_mem_no_sep hl) hc)

theorem splitLargeCodeBlock_bounds_code {c₀ c : ContentChunk}
    (hty : c₀.type = ChunkType.code) (hc : c ∈ splitLargeCodeBlock c₀) :
    (c.content.length ≤ MAX_CODE_BLOCK_SIZE ∨ '\n' ∉ c.content) ∧
      c.type = ChunkType.code := by
  unfold splitLargeCodeBlock at hc
  rw [if_neg (by simp [hty])] at hc
  exact codeBlockGo_bounds _ _ _ (Or.inl (by simp [MAX_CODE_BLOCK_SIZE]))
    (fun l hl => splitSep_mem_no_sep hl) hc

theorem sentAccum_fold_types :
    ∀ (sentences : List Str) (acc : List ContentChunk × Str),
      (∀ c ∈ acc.1, c.type = ChunkType.paragraph) →
      ∀ c ∈ (sentences.foldl sentAccum acc).1, c.type = ChunkType.paragraph := by
  intro sentences
  induction sentences with
  | nil => intro acc hacc c hc; exact hacc c hc
  | cons sentence rest ih =>
    intro acc hacc c hc
    obtain ⟨res, cur⟩ := acc
    rw [List.foldl_cons] at hc
    refine ih _ ?_ c hc
    intro d hd
    unfold sentAccum at hd
    dsimp only at hd hacc
    by_cases h1 : (cur ++ (if cur ≠ [] then ' ' :: sentence else sentence)).length ≤
        MAX_CHUNK_SIZE
    · rw [if_pos h1] at hd
      exact hacc d hd
    · rw [if_neg h1] at hd
      by_cases h2 : sentence.length > MAX_CHUNK_SIZE
      · rw [if_pos h2] at hd
        dsimp only at hd
        rcases List.mem_append.mp hd with hd | hd
        · by_cases h3 : cur ≠ []
          · rw [if_pos h3] at hd
            rcases List.mem_append.mp hd with hd | hd
            · exact hacc d hd
            · rw [List.mem_singleton] at hd; subst hd; rfl
          · rw [if_neg h3] at hd
            exact hacc d hd
        · exact (splitByCharacterCount_bounds hd).2
      · rw [if_neg (by omega)] at hd
        dsimp only at hd
        by_cases h3 : cur ≠ []
        · rw [if_pos h3] at hd
          rcases List.mem_append.mp hd with hd | hd
          · exact hacc d hd
          · rw [List.mem_singleton] at hd; subst hd; rfl
        · rw [if_neg h3] at hd
          exact hacc d hd

theorem trySplitBySentences_types (c₀ : ContentChunk) :
    ∀ c ∈ trySplitBySentences c₀, c.type = ChunkType.paragraph ∨ c = c₀ := by
  intro c hc
  unfold trySplitBySentences at hc
  by_cases h1 : (splitTextBySentences c₀.content).length ≤ 1
  · rw [if_pos h1, List.mem_singleton] at hc
    exact Or.inr hc
  · rw [if_neg h1] at hc
    dsimp only at hc
    set acc := (splitTextBySentences c₀.content).foldl sentAccum ([], []) with hacc
    have hresult0 : ∀ d ∈ acc.1, d.type = ChunkType.paragraph :=
      sentAccum_fold_types _ _ (by intro d hd; simp at hd)
    set result :=
      (if acc.2 ≠ [] then
        if acc.2.length > MAX_CHUNK_SIZE then
          acc.1 ++ splitByCharacterCount ⟨ChunkType.paragraph, acc.2, none⟩
        else acc.1 ++ [⟨ChunkType.paragraph, trim acc.2, none⟩]
       else acc.1) with hresultdef
    have hresult : ∀ d ∈ result, d.type = ChunkType.paragraph := by
      intro d hd
      rw [hresultdef] at hd
      by_cases h2 : acc.2 ≠ []
      · rw [if_pos h2] at hd
        by_cases h3 : acc.2.length > MAX_CHUNK_SIZE
        · rw [if_pos h3] at hd
          rcases List.mem_append.mp hd with hd | hd
          · exact hresult0 d hd
          · exact (splitByCharacterCount_bounds hd).2
        · rw [if_neg h3] at hd
          rcases List.mem_append.mp hd with hd | hd
          · exact hresult0 d hd
          · rw [List.mem_singleton] at hd; subst hd; rfl
      · rw [if_neg h2] at hd
        exact hresult0 d hd
    by_cases h4 : (result.filter (fun c => hasMatchedCodeBlocks c.content)).length ≠
        result.length
    · rw [if_pos h4, List.mem_singleton] at hc
      exact Or.inr hc
    · rw [if_neg h4] at hc
      by_cases h5 : result.length > 0
      · rw [if_pos h5] at hc
        exact Or.inl (hresult c hc)
      · rw [if_neg h5, List.mem_singleton] at hc
        exact Or.inr hc

theorem ensureAtomicChunkSize_bounds (c₀ : ContentChunk) :
    ∀ c ∈ ensureAtomicChunkSize c₀,
      (c.content.length ≤ MAX_CHUNK_SIZE ∨ (c.type = ChunkType.code ∧ '\n' ∉ c.content)) ∧
        (c.type = ChunkType.image → c₀.type = ChunkType.image) := by
  intro c hc
  unfold ensureAtomicChunkSize at hc
  by_cases h1 : c₀.content.length ≤ MAX_CHUNK_SIZE
  · rw [if_pos h1, List.mem_singleton] at hc
    subst hc
    exact ⟨Or.inl h1, fun h => h⟩
  · rw [if_neg h1] at hc
    by_cases h2 : c₀.type = ChunkType.code
    · rw [if_pos h2] at hc
      obtain ⟨hsz, hty⟩ := splitLargeCodeBlock_bounds_code h2 hc
      refine ⟨?_, fun h => by rw [h] at hty; cases hty⟩
      rcases hsz with h | h
      · exact Or.inl (by unfold MAX_CHUNK_SIZE; unfold MAX_CODE_BLOCK_SIZE at h; omega)
      · exact Or.inr ⟨hty, h⟩
    · rw [if_neg h2] at hc
      by_cases h3 : (trySplitBySentences c₀).length > 1 ∧
          (trySplitBySentences c₀).all (fun c => c.content.length ≤ MAX_CHUNK_SIZE)
      · rw [if_pos h3] at hc
        refine ⟨Or.inl (by simpa using List.all_eq_true.mp h3.2 c hc), fun h => ?_⟩
        rcases trySplitBySentences_types c₀ c hc with hty | hty
        · rw [h] at hty; cases hty
        · rwa [← hty]
      · rw [if_neg h3] at hc
        have := splitByCharacterCount_bounds hc
        exact ⟨Or.inl this.1, fun h => by rw [h] at this; cases this.2⟩

theorem textAtomsGo_bounds :
    ∀ (lines : List Str) (currentChunk : Str) (inCodeBlock : Bool) (lang : Str),
      ∀ c ∈ textAtomsGo lines currentChunk inCodeBlock lang,
        (c.content.length ≤ MAX_CHUNK_SIZE ∨ (c.type = ChunkType.code ∧ '\n' ∉ c.content)) ∧
          c.type ≠ ChunkType.image := by
  intro lines
  induction lines with
  | nil =>
    intro cur inCode lang c hc
    rw [textAtomsGo] at hc
    by_cases h : trim cur ≠ []
    · rw [if_pos h] at hc
      have hb := ensureAtomicChunkSize_bounds _ c hc
      refine ⟨hb.1, fun himg => ?_⟩
      have := hb.2 himg
      cases inCode <;> simp at this
    · rw [if_neg h] at hc; simp at hc
  | cons line rest ih =>
    intro cur inCode lang c hc
    rw [textAtomsGo] at hc
    by_cases h1 : hasPre ("```".data) (trim line) = true
    · rw [if_pos h1] at hc
      cases inCode with
      | true =>
        rw [if_pos rfl] at hc
        rcases List.mem_append.mp hc with hc | hc
        · have hb := ensureAtomicChunkSize_bounds _ c hc
          exact ⟨hb.1, fun himg => by have := hb.2 himg; simp at this⟩
        · exact ih _ _ _ c hc
      | false =>
        rw [if_neg (by simp)] at hc
        rcases List.mem_append.mp hc with hc | hc
        · by_cases h2 : trim cur ≠ []
          · rw [if_pos h2] at hc
            have hb := ensureAtomicChunkSize_bounds _ c hc
            exact ⟨hb.1, fun himg => by have := hb.2 himg; simp at this⟩
          · rw [if_neg h2] at hc; simp at hc
        · exact ih _ _ _ c hc
    · rw [if_neg h1] at hc
      dsimp only at hc
      by_cases h2 : ¬inCode = true ∧ trim line = [] ∧
          trim (cur ++ line ++ ['\n']) ≠ [] ∧
          isMajorStructuralBreak (trim (cur ++ line ++ ['\n'])) = true
      · rw [if_pos h2] at hc
        rcases List.mem_append.mp hc with hc | hc
        · have hb := ensureAtomicChunkSize_bounds _ c hc
          exact ⟨hb.1, fun himg => by have := hb.2 himg; simp at this⟩
        · exact ih _ _ _ c hc
      · rw [if_neg h2] at hc
        exact ih _ _ _ c hc

/-- All chunks produced by the text decomposition are non-image and either
within the ceiling or single-line code pieces. -/
theorem splitTextIntoAtomicChunks_bounds {text : Str} {c : ContentChunk}
    (hc : c ∈ splitTextIntoAtomicChunks text) :
    (c.content.length ≤ MAX_CHUNK_SIZE ∨ (c.type = ChunkType.code ∧ '\n' ∉ c.content)) ∧
      c.type ≠ ChunkType.image :=
  textAtomsGo_bounds _ _ _ _ c hc

theorem imageScanGo_bounds :
    ∀ (fuel : Nat) (pending s : Str), ∀ c ∈ imageScanGo fuel pending s, sizeOk c := by
  intro fuel
  induction fuel with
  | zero => intro pending s c hc; simp [imageScanGo] at hc
  | succ fuel ih =>
    intro pending s c hc
    rw [imageScanGo.eq_def] at hc
    cases s with
    | nil =>
      dsimp only at hc
      by_cases h : trim pending ≠ []
      · rw [if_pos h] at hc
        exact Or.elim (splitTextIntoAtomicChunks_bounds hc).1
          (fun h => Or.inl h) (fun h => Or.inr (Or.inr h))
      · rw [if_neg h] at hc; simp at hc
    | cons ch rest =>
      dsimp only at hc
      cases htry : tryImg (ch :: rest) with
      | some mr =>
        rw [htry] at hc
        rcases List.mem_append.mp hc with hc | hc
        · by_cases h : trim pending ≠ []
          · rw [if_pos h] at hc
            exact Or.elim (splitTextIntoAtomicChunks_bounds hc).1
              (fun h => Or.inl h) (fun h => Or.inr (Or.inr h))
          · rw [if_neg h] at hc; simp at hc
        · rcases List.mem_cons.mp hc with hc | hc
          · subst hc; exact Or.inr (Or.inl rfl)
          · exact ih _ _ c hc
      | none =>
        rw [htry] at hc
        exact ih _ _ c hc

theorem splitIntoAtomicChunks_bounds {content : Str} {c : ContentChunk}
    (hc : c ∈ splitIntoAtomicChunks content) : sizeOk c :=
  imageScanGo_bounds _ _ _ c hc

theorem findGroupGo_inv :
    ∀ (l : List ContentChunk) (cur : Str) (best : ContentChunk),
      sizeOk best → (∀ c ∈ l, sizeOk c) →
      sizeOk (findGroupGo cur best l).1 ∧ ∀ c ∈ (findGroupGo cur best l).2, c ∈ l := by
  intro l
  induction l with
  | nil =>
    intro cur best hb _
    exact ⟨hb, by intro c hc; simp [findGroupGo] at hc⟩
  | cons c rest ih =>
    intro cur best hb hl
    rw [findGroupGo]
    by_cases h1 : c.type = ChunkType.image
    · rw [if_pos h1]; exact ⟨hb, fun d hd => hd⟩
    · rw [if_neg h1]
      dsimp only
      by_cases h2 : (cur ++ '\n' :: '\n' :: c.content).length > MAX_CHUNK_SIZE
      · rw [if_pos h2]; exact ⟨hb, fun d hd => hd⟩
      · rw [if_neg h2]
        by_cases h3 : ¬hasMatchedCodeBlocks (cur ++ '\n' :: '\n' :: c.content) = true
        · rw [if_pos h3]; exact ⟨hb, fun d hd => hd⟩
        · rw [if_neg h3]
          have hb' : sizeOk ⟨ChunkType.paragraph, trim (cur ++ '\n' :: '\n' :: c.content), none⟩ := by
            left
            calc (trim (cur ++ '\n' :: '\n' :: c.content)).length
                ≤ (cur ++ '\n' :: '\n' :: c.content).length := trim_length_le _
              _ ≤ MAX_CHUNK_SIZE := by omega
          obtain ⟨hg1, hg2⟩ := ih _ _ hb' (fun d hd => hl d (by simp [hd]))
          exact ⟨hg1, fun d hd => List.mem_cons_of_mem c (hg2 d hd)⟩

theorem optimalRecombineGo_bounds :
    ∀ (fuel : Nat) (l : List ContentChunk), (∀ c ∈ l, sizeOk c) →
      ∀ c ∈ optimalRecombineGo fuel l, sizeOk c := by
  intro fuel
  induction fuel with
  | zero => intro l _ c hc; simp [optimalRecombineGo] at hc
  | succ fuel ih =>
    intro l hl c hc
    rw [optimalRecombineGo.eq_def] at hc
    cases l with
    | nil => simp at hc
    | cons a rest =>
      dsimp only at hc
      by_cases h1 : a.type = ChunkType.image
      · rw [if_pos h1] at hc
        rcases List.mem_cons.mp hc with hc | hc
        · subst hc; exact hl _ (List.mem_cons_self _ _)
        · exact ih _ (fun d hd => hl d (by simp [hd])) c hc
      · rw [if_neg h1] at hc
        obtain ⟨hg1, hg2⟩ := findGroupGo_inv rest a.content a (hl a (by simp))
          (fun d hd => hl d (by simp [hd]))
        rcases List.mem_cons.mp hc with hc | hc
        · subst hc; exact hg1
        · exact ih _ (fun d hd => hl d (by simp [hg2 d hd])) c hc

/-- C1 (amended): every chunk returned by `splitContent` has content length at
most 2000, except for image chunks (whose content is an untouched image
reference, of unbounded length) and code chunks consisting of a single source
line longer than the code ceiling (the line splitter never cuts inside a
line).  The original claim, which includes image chunks and code chunks in the
2000 bound, is refuted by `C1_ceiling_counterexample`. -/
theorem C1_ceiling_with_exceptions (content : Str) (sourceUrl : Option UrlBase) :
    ∀ c ∈ splitContent content sourceUrl,
      c.content.length ≤ 2000 ∨ c.type = ChunkType.image ∨
        (c.type = ChunkType.code ∧ '\n' ∉ c.content) := by
  intro c hc
  have hs : sizeOk c := by
    unfold splitContent intelligentSplit optimalRecombine at hc
    exact optimalRecombineGo_bounds _ _ (fun d hd => splitIntoAtomicChunks_bounds hd) c hc
  simpa [sizeOk, MAX_CHUNK_SIZE] using hs

theorem C1_ceiling_with_exceptions_witness :
    (⟨ChunkType.paragraph, "hi".data, none⟩ : ContentChunk) ∈ splitContent ("hi".data) none ∧
    ((⟨ChunkType.paragraph, "hi".data, none⟩ : ContentChunk).content.length ≤ 2000 ∨
      (⟨ChunkType.paragraph, "hi".data, none⟩ : ContentChunk).type = ChunkType.image ∨
      ((⟨ChunkType.paragraph, "hi".data, none⟩ : ContentChunk).type = ChunkType.code ∧
        '\n' ∉ (⟨ChunkType.paragraph, "hi".data, none⟩ : ContentChunk).content)) :=
  ⟨by decide, C1_ceiling_with_exceptions ("hi".data) none _ (by decide)⟩

/-! ### Identity lemmas for the sanitizer on well-behaved strings -/

theorem hasTriple_eq_false_of_not_mem {x : Char} {s : Str} (h : x ∉ s) :
    hasTriple x s = false := by
  cases ht : hasTriple x s
  · rfl
  · exact absurd (hasTriple_mem ht) h

theorem collapseNl_eq_self_aux :
    ∀ (n : Nat) (s : Str), s.length ≤ n → hasTriple '\n' s = false → collapseNl s = s := by
  intro n
  induction n with
  | zero =>
    intro s hlen _
    have hs : s = [] := List.length_eq_zero.mp (Nat.le_zero.mp hlen)
    subst hs; rfl
  | succ n ih =>
    intro s hlen h
    match s with
    | [] => rfl
    | [c] => rfl
    | c :: d :: rest =>
      by_cases hcd : c = '\n' ∧ d = '\n'
      · obtain ⟨hc, hd⟩ := hcd
        subst hc; subst hd
        have hnotriple : ∀ e ∈ rest.head?, e ≠ '\n' := by
          intro e he hne
          subst hne
          cases rest with
          | nil => simp at he
          | cons e0 r =>
            simp only [List.head?_cons, Option.mem_def, Option.some.injEq] at he
            subst he
            rw [hasTriple] at h
            simp at h
        rw [collapseNl, if_pos ⟨rfl, rfl⟩, collapseNlSkip_eq]
        have hdrop : rest.dropWhile (· = '\n') = rest := by
          cases rest with
          | nil => rfl
          | cons e r =>
            have : e ≠ '\n' := hnotriple e rfl
            rw [List.dropWhile_cons, if_neg (by simp [this])]
        rw [hdrop]
        have hrest : hasTriple '\n' rest = false := by
          cases h' : hasTriple '\n' rest
          · rfl
          · rw [hasTriple_cons (hasTriple_cons h')] at h; cases h
        have hlen' : rest.length ≤ n := by
          simp only [List.length_cons] at hlen; omega
        rw [ih rest hlen' hrest]
      · rw [collapseNl, if_neg hcd]
        have hrest : hasTriple '\n' (d :: rest) = false := by
          cases h' : hasTriple '\n' (d :: rest)
          · rfl
          · rw [hasTriple_cons h'] at h; cases h
        have hlen' : (d :: rest).length ≤ n := by
          simp only [List.length_cons] at hlen ⊢; omega
        rw [ih (d :: rest) hlen' hrest]

theorem collapseNl_eq_self {s : Str} (h : hasTriple '\n' s = false) :
    collapseNl s = s :=
  collapseNl_eq_self_aux s.length s (Nat.le_refl _) h

theorem noTrailST_of_no_st {s : Str} (h : ∀ c ∈ s, ¬(c = ' ' ∨ c = '\t')) :
    noTrailST s = true := by
  induction s with
  | nil => rfl
  | cons c rest ih =>
    have hc := h c (by simp)
    push_neg at hc
    match rest with
    | [] =>
      rw [noTrailST]
      simp [hc.1, hc.2]
    | d :: r =>
      rw [noTrailST, Bool.and_eq_true]
      refine ⟨by simp [hc.1, hc.2], ?_⟩
      exact ih (fun e he => h e (by simp [he]))

theorem noTrailST_tail {c : Char} {s : Str} (h : noTrailST (c :: s) = true) :
    noTrailST s = true := by
  match s with
  | [] => rfl
  | d :: r =>
    rw [noTrailST, Bool.and_eq_true] at h
    exact h.2

theorem noTrailST_getLast : ∀ {s : Str}, noTrailST s = true → ∀ {c : Char},
    s.getLast? = some c → ¬(c = ' ' ∨ c = '\t') := by
  intro s
  induction s with
  | nil => intro _ c h; simp at h
  | cons d rest ih =>
    intro h c hlast
    match rest with
    | [] =>
      rw [List.getLast?_singleton] at hlast
      injection hlast with hdc
      subst hdc
      rw [noTrailST] at h
      simpa using h
    | e :: r =>
      rw [List.getLast?_cons_cons] at hlast
      exact ih (noTrailST_tail h) hlast

/-- Every line of a string satisfies the no-trailing-whitespace scan when
the whole string does. -/
theorem noTrailST_lines : ∀ {s : Str}, noTrailST s = true →
    ∀ l ∈ splitLines s, noTrailST l = true := by
  intro s
  induction s with
  | nil =>
    intro _ l hl
    rw [show splitLines [] = [[]] from rfl, List.mem_singleton] at hl
    subst hl; rfl
  | cons c rest ih =>
    intro h l hl
    by_cases hc : c = '\n'
    · rw [show splitLines (c :: rest) = [] :: splitLines rest by
        simp [splitLines, splitSep, hc]] at hl
      rcases List.mem_cons.mp hl with h' | h'
      · subst h'; rfl
      · exact ih (noTrailST_tail h) l h'
    · rcases hsp : splitLines rest with _ | ⟨m, ms⟩
      · exact absurd hsp (splitSep_ne_nil '\n' rest)
      rw [show splitLines (c :: rest) = (c :: m) :: ms from
        splitSep_cons_of_ne _ hc hsp] at hl
      rcases List.mem_cons.mp hl with h' | h'
      · subst h'
        match rest, hsp, h with
        | [], hsp, h =>
          rw [show splitLines ([] : Str) = [[]] from rfl] at hsp
          injection hsp with h1 _
          subst h1
          exact h
        | d :: r, hsp, h =>
          by_cases hd : d = '\n'
          · rw [show splitLines (d :: r) = [] :: splitLines r by
              simp [splitLines, splitSep, hd]] at hsp
            injection hsp with h1 _
            subst h1
            rw [noTrailST, Bool.and_eq_true] at h
            have h1 := h.1
            rw [hd] at h1
            simp only [decide_True, Bool.not_true, Bool.or_false] at h1
            rw [noTrailST]
            exact h1
          · rcases hsp2 : splitLines r with _ | ⟨m2, ms2⟩
            · exact absurd hsp2 (splitSep_ne_nil '\n' r)
            rw [show splitLines (d :: r) = (d :: m2) :: ms2 from
              splitSep_cons_of_ne _ hd hsp2] at hsp
            injection hsp with h1 _
            subst h1
            rw [noTrailST, Bool.and_eq_true] at h ⊢
            constructor
            · simp [hd]
            · have hm2 : (d :: m2) ∈ splitLines (d :: r) := by
                rw [show splitLines (d :: r) = (d :: m2) :: ms2 from
                  splitSep_cons_of_ne _ hd hsp2]
                exact List.mem_cons_self _ _
              exact ih h.2 _ hm2
      · exact ih (noTrailST_tail h) l (hsp ▸ List.mem_cons_of_mem m h')

theorem stripLine_eq_self {l : Str} (h : noTrailST l = true) :
    (l.reverse.dropWhile (fun c => decide (c = ' ' ∨ c = '\t'))).reverse = l := by
  cases hr : l.reverse with
  | nil =>
    have : l = [] := by simpa using congrArg List.reverse hr
    simp [this]
  | cons c r =>
    have hlast : l.getLast? = some c := by
      rw [List.getLast?_eq_head?_reverse, hr]; rfl
    have := noTrailST_getLast h hlast
    rw [List.dropWhile_cons, if_neg (by simpa using this), ← hr, List.reverse_reverse]

theorem stripTrailWs_eq_self {s : Str} (h : noTrailST s = true) :
    stripTrailWs s = s := by
  unfold stripTrailWs
  rw [List.map_congr_left (fun l hl => stripLine_eq_self (noTrailST_lines h l hl)),
    List.map_id']
  exact intercalate_splitSep '\n' s

theorem trimL_eq_self {s : Str} (h : ∀ c, s.head? = some c → isWs c = false) :
    trimL s = s := by
  cases s with
  | nil => rfl
  | cons c rest =>
    unfold trimL
    rw [List.dropWhile_cons, if_neg (by simp [h c rfl])]

theorem trimR_eq_self {s : Str} (h : ∀ c, s.getLast? = some c → isWs c = false) :
    trimR s = s := by
  unfold trimR
  cases hr : s.reverse with
  | nil =>
    have : s = [] := by simpa using congrArg List.reverse hr
    simp [this]
  | cons c r =>
    have hlast : s.getLast? = some c := by
      rw [List.getLast?_eq_head?_reverse, hr]; rfl
    rw [List.dropWhile_cons, if_neg (by simp [h c hlast]), ← hr, List.reverse_reverse]

theorem trim_eq_self {s : Str} (hh : ∀ c, s.head? = some c → isWs c = false)
    (hl : ∀ c, s.getLast? = some c → isWs c = false) : trim s = s := by
  unfold trim
  rw [trimL_eq_self hh, trimR_eq_self hl]

/-- On a string with no `---`, no `* * *` line, no triple newline and no
trailing space or tab on any line, the sanitizer only trims. -/
theorem clean_eq_trim {s : Str} (h1 : hasTriple '-' s = false)
    (h2 : ∀ l ∈ splitLines s, l ≠ star3)
    (h3 : hasTriple '\n' s = false)
    (h4 : noTrailST s = true) :
    cleanContentForDiscord s = trim s := by
  unfold cleanContentForDiscord
  rw [fmRemove_eq_self h1, starReplace_eq_self h2, collapseNl_eq_self h3,
    stripTrailWs_eq_self h4]

/-! ### Stability of the well-behavedness conditions under trimming (claim C4) -/

theorem hasTriple_append_right {x : Char} (b : Str) :
    ∀ {s : Str}, hasTriple x s = true → hasTriple x (s ++ b) = true := by
  intro s
  induction s with
  | nil => intro h; simp [hasTriple] at h
  | cons c s' ih =>
    intro h
    match s', ih, h with
    | d :: e :: r, ih, h =>
      rw [show (c :: d :: e :: r) ++ b = c :: d :: e :: (r ++ b) from rfl, hasTriple,
        Bool.or_eq_true]
      rw [hasTriple, Bool.or_eq_true] at h
      rcases h with h | h
      · exact Or.inl h
      · exact Or.inr (ih h)
    | [d], ih, h => simp [hasTriple] at h
    | [], ih, h => simp [hasTriple] at h

theorem trimL_decomp (s : Str) :
    trimL s = trim s ++ ((trimL s).reverse.takeWhile isWs).reverse := by
  conv_lhs => rw [← List.reverse_reverse (trimL s),
    ← List.takeWhile_append_dropWhile isWs (trimL s).reverse]
  rw [List.reverse_append]
  rfl

theorem full_decomp (s : Str) :
    s = s.takeWhile isWs ++ (trim s ++ ((trimL s).reverse.takeWhile isWs).reverse) := by
  conv_lhs => rw [← List.takeWhile_append_dropWhile isWs s]
  rw [← trimL_decomp]
  rfl

theorem hasTriple_trim {x : Char} {s : Str} (h : hasTriple x (trim s) = true) :
    hasTriple x s = true := by
  have h1 := hasTriple_append_right (((trimL s).reverse.takeWhile isWs).reverse) h
  have h2 := hasTriple_append_left (s.takeWhile isWs) h1
  rw [← full_decomp] at h2
  exact h2

theorem hasTriple_trim_false {x : Char} {s : Str} (h : hasTriple x s = false) :
    hasTriple x (trim s) = false := by
  cases ht : hasTriple x (trim s)
  · rfl
  · rw [hasTriple_trim ht] at h
    exact absurd h (by decide)

theorem mem_trim {s : Str} {c : Char} (h : c ∈ trim s) : c ∈ s := by
  unfold trim trimR at h
  rw [List.mem_reverse] at h
  have h1 : c ∈ (trimL s).reverse := (List.dropWhile_sublist _).subset h
  rw [List.mem_reverse] at h1
  unfold trimL at h1
  exact (List.dropWhile_sublist _).subset h1

theorem trim_head_not_ws {s : Str} {c : Char} (hc : (trim s).head? = some c) :
    isWs c = false := by
  cases he : trim s with
  | nil => rw [he] at hc; simp at hc
  | cons c' r =>
    rw [he] at hc
    simp only [List.head?_cons, Option.some.injEq] at hc
    subst hc
    have hdec := trimL_decomp s
    rw [he, List.cons_append] at hdec
    exact dropWhile_head_false hdec

theorem trim_getLast_not_ws {s : Str} {c : Char} (hc : (trim s).getLast? = some c) :
    isWs c = false := by
  rw [List.getLast?_eq_head?_reverse] at hc
  have hrev : (trim s).reverse = (trimL s).reverse.dropWhile isWs := by
    show (trimR (trimL s)).reverse = _
    unfold trimR
    rw [List.reverse_reverse]
  rw [hrev] at hc
  cases he : (trimL s).reverse.dropWhile isWs with
  | nil => rw [he] at hc; simp at hc
  | cons c' r =>
    rw [he] at hc
    simp only [List.head?_cons, Option.some.injEq] at hc
    subst hc
    exact dropWhile_head_false he

theorem trim_idem (s : Str) : trim (trim s) = trim s :=
  trim_eq_self (fun _ hc => trim_head_not_ws hc) (fun _ hc => trim_getLast_not_ws hc)

theorem noTrailST_append_left : ∀ (a : Str) {y : Str},
    noTrailST (a ++ y) = true → noTrailST y = true := by
  intro a
  induction a with
  | nil => intro y h; exact h
  | cons c a' ih => intro y h; exact ih (noTrailST_tail h)

theorem noTrailST_prefix_aux : ∀ (n : Nat) (z y : Str), z.length ≤ n → z <+: y →
    noTrailST y = true →
    (∀ c, z.getLast? = some c → ¬(c = ' ' ∨ c = '\t')) → noTrailST z = true := by
  intro n
  induction n with
  | zero =>
    intro z y hlen _ _ _
    have hz : z = [] := List.length_eq_zero.mp (Nat.le_zero.mp hlen)
    subst hz
    rfl
  | succ n ih =>
    intro z y hlen hpre hy hlast
    match z, hlen, hpre, hlast with
    | [], _, _, _ => rfl
    | [c], _, _, hlast =>
      have hc := hlast c (by rw [List.getLast?_singleton])
      rw [noTrailST]
      have hc1 : c ≠ ' ' := fun e => hc (Or.inl e)
      have hc2 : c ≠ '\t' := fun e => hc (Or.inr e)
      simp [hc1, hc2]
    | c :: d :: z'', hlen, hpre, hlast =>
      obtain ⟨t, ht⟩ := hpre
      subst ht
      rw [show ((c :: d :: z'') ++ t) = c :: d :: (z'' ++ t) from rfl, noTrailST,
        Bool.and_eq_true] at hy
      rw [noTrailST, Bool.and_eq_true]
      refine ⟨hy.1, ?_⟩
      apply ih (d :: z'') (d :: (z'' ++ t))
        (by simp only [List.length_cons] at hlen ⊢; omega) ⟨t, rfl⟩ hy.2
      intro e he
      exact hlast e (by rw [List.getLast?_cons_cons]; exact he)

theorem noTrailST_prefix {z y : Str} (hpre : z <+: y) (hy : noTrailST y = true)
    (hlast : ∀ c, z.getLast? = some c → ¬(c = ' ' ∨ c = '\t')) : noTrailST z = true :=
  noTrailST_prefix_aux z.length z y (Nat.le_refl _) hpre hy hlast

theorem noTrailST_trim {s : Str} (h : noTrailST s = true) : noTrailST (trim s) = true := by
  have h1 : noTrailST (trimL s) = true := by
    apply noTrailST_append_left (s.takeWhile isWs)
    rw [show s.takeWhile isWs ++ trimL s = s from List.takeWhile_append_dropWhile isWs s]
    exact h
  apply noTrailST_prefix ⟨((trimL s).reverse.takeWhile isWs).reverse, (trimL_decomp s).symm⟩ h1
  intro c hc
  have hws := trim_getLast_not_ws hc
  rintro (rfl | rfl) <;> exact absurd hws (by decide)

/-- C4 (amended): the sanitizer is idempotent on every input that is free of
the features whose handling interacts across the two passes — no three
consecutive `-` characters (so no frontmatter delimiter and no `-`-built
rule), no `*` character, no three consecutive newlines and no trailing space
or tab on any line; on such inputs one pass only trims, and trimming is
idempotent.  Unconditional idempotence, as claimed, is refuted by
`C4_sanitize_not_idempotent_counterexample`: stripping whitespace-only lines
in the first pass creates newline runs that only the second pass collapses. -/
theorem C4_sanitize_idempotent_amended {x : Str}
    (h1 : hasTriple '-' x = false)
    (h2 : '*' ∉ x)
    (h3 : hasTriple '\n' x = false)
    (h4 : noTrailST x = true) :
    cleanContentForDiscord (cleanContentForDiscord x) = cleanContentForDiscord x := by
  have hstar : ∀ l ∈ splitLines x, l ≠ star3 := by
    intro l hl he
    exact h2 (mem_line_of_mem_splitSep hl (by rw [he]; decide))
  have hcx : cleanContentForDiscord x = trim x := clean_eq_trim h1 hstar h3 h4
  rw [hcx]
  have h2' : '*' ∉ trim x := fun hm => h2 (mem_trim hm)
  have hstar' : ∀ l ∈ splitLines (trim x), l ≠ star3 := by
    intro l hl he
    exact h2' (mem_line_of_mem_splitSep hl (by rw [he]; decide))
  rw [clean_eq_trim (hasTriple_trim_false h1) hstar' (hasTriple_trim_false h3)
    (noTrailST_trim h4), trim_idem]

theorem C4_sanitize_idempotent_amended_witness :
    (hasTriple '-' ("hey there".data) = false ∧ '*' ∉ ("hey there".data) ∧
     hasTriple '\n' ("hey there".data) = false ∧ noTrailST ("hey there".data) = true) ∧
    cleanContentForDiscord (cleanContentForDiscord ("hey there".data)) =
      cleanContentForDiscord ("hey there".data) :=
  ⟨by decide,
    C4_sanitize_idempotent_amended (by decide) (by decide) (by decide) (by decide)⟩

/-! ### Infrastructure for claim C9: fence-free short documents -/

def linesLen : List Str → Nat
  | [] => 0
  | l :: rest => l.length + 1 + linesLen rest

def joinNl : List Str → Str
  | [] => []
  | l :: rest => l ++ '\n' :: joinNl rest

def joinLen : List ContentChunk → Nat
  | [] => 0
  | c :: rest => 2 + c.content.length + joinLen rest

theorem linesLen_splitSep (s : Str) : linesLen (splitSep '\n' s) = s.length + 1 := by
  induction s with
  | nil => rfl
  | cons c rest ih =>
    by_cases hc : c = '\n'
    · simp only [splitSep, if_pos hc, linesLen]
      simp only [List.length_nil, List.length_cons]
      omega
    · simp only [splitSep, if_neg hc]
      cases hs : splitSep '\n' rest with
      | nil => exact absurd hs (splitSep_ne_nil _ _)
      | cons l ls =>
        rw [hs] at ih
        dsimp only
        rw [show linesLen ((c :: l) :: ls) = (c :: l).length + 1 + linesLen ls from rfl]
        rw [show linesLen (l :: ls) = l.length + 1 + linesLen ls from rfl] at ih
        simp only [List.length_cons] at ih ⊢
        omega

theorem joinNl_splitSep (s : Str) : joinNl (splitSep '\n' s) = s ++ ['\n'] := by
  induction s with
  | nil => rfl
  | cons c rest ih =>
    by_cases hc : c = '\n'
    · subst hc
      rw [show splitSep '\n' ('\n' :: rest) = [] :: splitSep '\n' rest from by
        simp [splitSep]]
      rw [show joinNl ([] :: splitSep '\n' rest) = '\n' :: joinNl (splitSep '\n' rest)
        from rfl, ih]
      rfl
    · simp only [splitSep, if_neg hc]
      cases hs : splitSep '\n' rest with
      | nil => exact absurd hs (splitSep_ne_nil _ _)
      | cons l ls =>
        rw [hs] at ih
        dsimp only
        rw [show joinNl ((c :: l) :: ls) = (c :: l) ++ '\n' :: joinNl ls from rfl]
        rw [show joinNl (l :: ls) = l ++ '\n' :: joinNl ls from rfl] at ih
        rw [show ((c :: l) ++ '\n' :: joinNl ls) = c :: (l ++ '\n' :: joinNl ls) from rfl, ih]
        rfl

theorem dropWhile_append_all {p : Char → Bool} :
    ∀ {u : Str} (v : Str), (∀ c ∈ u, p c = true) →
      (u ++ v).dropWhile p = v.dropWhile p := by
  intro u
  induction u with
  | nil => intro v _; rfl
  | cons c u' ih =>
    intro v h
    rw [List.cons_append, List.dropWhile_cons, if_pos (h c (by simp))]
    exact ih v (fun d hd => h d (by simp [hd]))

theorem dropWhile_all_nil {p : Char → Bool} {u : Str} (h : ∀ c ∈ u, p c = true) :
    u.dropWhile p = [] := by
  have h1 : (u ++ ([] : Str)).dropWhile p = ([] : Str).dropWhile p :=
    dropWhile_append_all ([] : Str) h
  simpa using h1

theorem dropWhile_append_ne {p : Char → Bool} :
    ∀ {u : Str} (v : Str), u.dropWhile p ≠ [] →
      (u ++ v).dropWhile p = u.dropWhile p ++ v := by
  intro u
  induction u with
  | nil => intro v h; exact absurd rfl h
  | cons c u' ih =>
    intro v h
    rw [List.cons_append, List.dropWhile_cons]
    rw [List.dropWhile_cons] at h
    by_cases hp : p c = true
    · rw [if_pos hp]
      rw [if_pos hp] at h
      rw [show List.dropWhile p (c :: u') = List.dropWhile p u' from by
        rw [List.dropWhile_cons, if_pos hp]]
      exact ih v h
    · rw [if_neg hp] at h ⊢
      rw [show List.dropWhile p (c :: u') = c :: u' from by
        rw [List.dropWhile_cons, if_neg hp]]
      rfl

theorem all_ws_of_trimL_nil {s : Str} (h : trimL s = []) : ∀ c ∈ s, isWs c = true := by
  intro c hc
  have hs : s = s.takeWhile isWs := by
    conv_lhs => rw [← List.takeWhile_append_dropWhile isWs s]
    rw [show s.dropWhile isWs = ([] : Str) from h, List.append_nil]
  rw [hs] at hc
  exact List.mem_takeWhile_imp hc

theorem trimR_append_ws {y w : Str} (hw : ∀ c ∈ w, isWs c = true) :
    trimR (y ++ w) = trimR y := by
  unfold trimR
  rw [List.reverse_append, dropWhile_append_all _ (fun c hc => hw c (List.mem_reverse.mp hc))]

theorem trim_append_ws {a w : Str} (hw : ∀ c ∈ w, isWs c = true) :
    trim (a ++ w) = trim a := by
  by_cases ha : trimL a = []
  · have haw : ∀ c ∈ a, isWs c = true := all_ws_of_trimL_nil ha
    have h1 : trimL (a ++ w) = [] := by
      apply dropWhile_all_nil
      intro c hc
      rcases List.mem_append.mp hc with h | h
      · exact haw c h
      · exact hw c h
    unfold trim
    rw [h1, ha]
  · unfold trim
    unfold trimL at ha ⊢
    rw [dropWhile_append_ne w ha]
    exact trimR_append_ws hw

theorem trim_nil_all_ws {s : Str} (h : trim s = []) : ∀ c ∈ s, isWs c = true := by
  intro c hc
  have hd := full_decomp s
  rw [h, List.nil_append] at hd
  rw [hd] at hc
  rcases List.mem_append.mp hc with h1 | h1
  · exact List.mem_takeWhile_imp h1
  · rw [List.mem_reverse] at h1
    exact List.mem_takeWhile_imp h1

theorem trim_length_lt {s : Str} {c : Char} (hl : s.getLast? = some c) (hw : isWs c = true) :
    (trim s).length < s.length := by
  cases s with
  | nil => simp at hl
  | cons d r =>
    by_cases hd : isWs d = true
    · have h1 : (trimL (d :: r)).length ≤ r.length := by
        unfold trimL
        rw [List.dropWhile_cons, if_pos hd]
        exact (List.dropWhile_sublist _).length_le
      have h2 : (trim (d :: r)).length ≤ (trimL (d :: r)).length := by
        unfold trim trimR
        rw [List.length_reverse]
        calc (List.dropWhile isWs (trimL (d :: r)).reverse).length
            ≤ (trimL (d :: r)).reverse.length := (List.dropWhile_sublist _).length_le
          _ = _ := List.length_reverse _
      simp only [List.length_cons]
      omega
    · have h1 : trimL (d :: r) = d :: r := by
        unfold trimL
        rw [List.dropWhile_cons, if_neg hd]
      unfold trim
      rw [h1]
      unfold trimR
      rw [List.length_reverse]
      cases hrev : (d :: r).reverse with
      | nil => exact absurd (congrArg List.length hrev) (by simp)
      | cons e t =>
        have he : c = e := by
          have h3 : (d :: r).getLast? = (d :: r).reverse.head? :=
            List.getLast?_eq_head?_reverse
          rw [hl, hrev] at h3
          simpa using h3
        rw [List.dropWhile_cons, if_pos (he ▸ hw)]
        calc (t.dropWhile isWs).length ≤ t.length := (List.dropWhile_sublist _).length_le
          _ < (d :: r).length := by
            have h4 := congrArg List.length hrev
            simp only [List.length_reverse, List.length_cons] at h4 ⊢
            omega

theorem hasTriple_snoc {x c : Char} (hc : c ≠ x) :
    ∀ {s : Str}, hasTriple x s = false → hasTriple x (s ++ [c]) = false := by
  intro s
  induction s with
  | nil => intro _; rfl
  | cons d s' ih =>
    intro h
    match s', ih, h with
    | [], _, _ => rfl
    | [e], _, _ =>
      rw [show ((d :: [e]) ++ [c] : Str) = [d, e, c] from rfl, hasTriple,
        show hasTriple x [e, c] = false from rfl]
      simp [hc]
    | e :: f :: r, ih, h =>
      rw [hasTriple, Bool.or_eq_false_iff] at h
      rw [show ((d :: e :: f :: r) ++ [c] : Str) = d :: e :: f :: (r ++ [c]) from rfl,
        hasTriple, Bool.or_eq_false_iff]
      exact ⟨h.1, ih h.2⟩

theorem hasTriple_join_aux {x : Char} (hx : x ≠ '\n') (b : Str) (hb : hasTriple x b = false) :
    hasTriple x ('\n' :: '\n' :: b) = false := by
  have hnx : ¬('\n' = x) := fun h => hx h.symm
  cases b with
  | nil => rfl
  | cons b0 b' =>
    rw [hasTriple, Bool.or_eq_false_iff]
    refine ⟨by simp [hnx], ?_⟩
    cases b' with
    | nil => rfl
    | cons b1 b'' =>
      rw [hasTriple, Bool.or_eq_false_iff]
      exact ⟨by simp [hnx], hb⟩

theorem hasTriple_join_n {x : Char} (hx : x ≠ '\n') :
    ∀ (n : Nat) (a b : Str), a.length ≤ n → hasTriple x a = false → hasTriple x b = false →
      hasTriple x (a ++ '\n' :: '\n' :: b) = false := by
  have hnx : ¬('\n' = x) := fun h => hx h.symm
  intro n
  induction n with
  | zero =>
    intro a b hlen _ hb
    have ha : a = [] := List.length_eq_zero.mp (Nat.le_zero.mp hlen)
    subst ha
    exact hasTriple_join_aux hx b hb
  | succ n ih =>
    intro a b hlen ha hb
    match a, hlen, ha with
    | [], _, _ => exact hasTriple_join_aux hx b hb
    | [c], _, _ =>
      rw [show (([c] : Str) ++ '\n' :: '\n' :: b) = c :: '\n' :: '\n' :: b from rfl,
        hasTriple, Bool.or_eq_false_iff]
      exact ⟨by simp [hnx], hasTriple_join_aux hx b hb⟩
    | [c, d], hlen, _ =>
      rw [show (([c, d] : Str) ++ '\n' :: '\n' :: b) = c :: ([d] ++ '\n' :: '\n' :: b) from rfl]
      rw [show (([d] : Str) ++ '\n' :: '\n' :: b) = d :: '\n' :: '\n' :: b from rfl,
        hasTriple, Bool.or_eq_false_iff]
      refine ⟨by simp [hnx], ?_⟩
      exact ih [d] b (by simp only [List.length_cons, List.length_nil] at hlen ⊢; omega) rfl hb
    | c :: d :: e :: r, hlen, ha =>
      rw [hasTriple, Bool.or_eq_false_iff] at ha
      rw [show ((c :: d :: e :: r) ++ '\n' :: '\n' :: b) =
        c :: d :: e :: (r ++ '\n' :: '\n' :: b) from rfl, hasTriple, Bool.or_eq_false_iff]
      refine ⟨ha.1, ?_⟩
      have h1 := ih (d :: e :: r) b (by simp only [List.length_cons] at hlen ⊢; omega) ha.2 hb
      exact h1

theorem hasTriple_join {x : Char} (hx : x ≠ '\n') {a b : Str}
    (ha : hasTriple x a = false) (hb : hasTriple x b = false) :
    hasTriple x (a ++ '\n' :: '\n' :: b) = false :=
  hasTriple_join_n hx a.length a b (Nat.le_refl _) ha hb

theorem countFences_eq_zero_of_no_triple :
    ∀ (n : Nat) (s : Str), s.length ≤ n → hasTriple btChar s = false → countFences s = 0 := by
  intro n
  induction n with
  | zero =>
    intro s hlen _
    have hs : s = [] := List.length_eq_zero.mp (Nat.le_zero.mp hlen)
    subst hs
    rfl
  | succ n ih =>
    intro s hlen h
    match s, hlen, h with
    | [], _, _ => rfl
    | [c], _, _ => rfl
    | [c, d], _, _ => rfl
    | c :: d :: e :: r, hlen, h =>
      rw [hasTriple, Bool.or_eq_false_iff, decide_eq_false_iff_not] at h
      rw [countFences, if_neg h.1]
      exact ih (d :: e :: r) (by simp only [List.length_cons] at hlen ⊢; omega) h.2

theorem hasMatchedCodeBlocks_of_no_triple {s : Str} (h : hasTriple btChar s = false) :
    hasMatchedCodeBlocks s = true := by
  unfold hasMatchedCodeBlocks
  rw [countFences_eq_zero_of_no_triple s.length s (Nat.le_refl _) h]
  rfl

theorem ensureAtomicChunkSize_of_le {chunk : ContentChunk}
    (h : chunk.content.length ≤ MAX_CHUNK_SIZE) :
    ensureAtomicChunkSize chunk = [chunk] := by
  unfold ensureAtomicChunkSize
  rw [if_pos h]

theorem optimalRecombineGo_nil : ∀ (fuel : Nat), optimalRecombineGo fuel [] = [] := by
  intro fuel
  cases fuel <;> rfl

theorem packLen_cons : ∀ (rest : List ContentChunk) (a : ContentChunk),
    packLen (a :: rest) = a.content.length + joinLen rest := by
  intro rest
  induction rest with
  | nil => intro a; simp [packLen, joinLen]
  | cons b r ih =>
    intro a
    rw [show packLen (a :: b :: r) = a.content.length + 2 + packLen (b :: r) from rfl,
      ih b, show joinLen (b :: r) = 2 + b.content.length + joinLen r from rfl]
    omega

theorem hasTriple_prefix_false {x : Char} {a b : Str} (h : hasTriple x (a ++ b) = false) :
    hasTriple x a = false := by
  cases ht : hasTriple x a
  · rfl
  · rw [hasTriple_append_right b ht] at h
    exact absurd h (by decide)

theorem hasTriple_suffix_false {x : Char} {a b : Str} (h : hasTriple x (a ++ b) = false) :
    hasTriple x b = false := by
  cases ht : hasTriple x b
  · rfl
  · rw [hasTriple_append_left a ht] at h
    exact absurd h (by decide)

theorem textAtomsGo_merge_ready :
    ∀ (lines : List Str) (cur lang : Str),
      (∀ l ∈ lines, hasPre ("```".data) (trim l) = false) →
      hasTriple btChar (cur ++ joinNl lines) = false →
      (cur = [] ∨ cur.getLast? = some '\n') →
      cur.length + linesLen lines ≤ MAX_CHUNK_SIZE →
      (∀ c ∈ textAtomsGo lines cur false lang,
         c.type = ChunkType.paragraph ∧ hasTriple btChar c.content = false) ∧
      packLen (textAtomsGo lines cur false lang) ≤ cur.length + linesLen lines ∧
      (textAtomsGo lines cur false lang = [] → trim cur = [] ∧ ∀ l ∈ lines, trim l = []) := by
  intro lines
  induction lines with
  | nil =>
    intro cur lang _ htri hlast hsize
    rw [show joinNl [] = ([] : Str) from rfl, List.append_nil] at htri
    rw [textAtomsGo]
    by_cases h : trim cur ≠ []
    · rw [if_pos h]
      have hens : ensureAtomicChunkSize
          ⟨ChunkType.paragraph, trim cur, none⟩ = [⟨ChunkType.paragraph, trim cur, none⟩] := by
        apply ensureAtomicChunkSize_of_le
        calc (trim cur).length ≤ cur.length := trim_length_le _
          _ ≤ MAX_CHUNK_SIZE := by rw [linesLen] at hsize; omega
      simp only [Bool.false_eq_true, if_false]
      rw [hens]
      refine ⟨?_, ?_, ?_⟩
      · intro c hc
        rw [List.mem_singleton] at hc
        subst hc
        exact ⟨rfl, hasTriple_trim_false htri⟩
      · rw [show packLen [(⟨ChunkType.paragraph, trim cur, none⟩ : ContentChunk)] =
          (trim cur).length from rfl, linesLen]
        have := trim_length_le cur
        omega
      · intro hnil
        exact absurd hnil (by simp)
    · rw [if_neg h]
      refine ⟨fun c hc => absurd hc (by simp),
        by rw [show packLen ([] : List ContentChunk) = (0 : Nat) from rfl]
           exact Nat.zero_le _, ?_⟩
      intro _
      exact ⟨not_not.mp h, fun l hl => absurd hl (by simp)⟩
  | cons line rest ih =>
    intro cur lang hfence htri hlast hsize
    have hf : hasPre ("```".data) (trim line) = false := hfence line (by simp)
    have hassoc : cur ++ joinNl (line :: rest) =
        (cur ++ line ++ ['\n']) ++ joinNl rest := by
      rw [show joinNl (line :: rest) = line ++ '\n' :: joinNl rest from rfl]
      simp [List.append_assoc]
    rw [hassoc] at htri
    have htri' : hasTriple btChar (cur ++ line ++ ['\n']) = false := hasTriple_prefix_false htri
    have htrirest : hasTriple btChar (joinNl rest) = false := hasTriple_suffix_false htri
    have hccl : (cur ++ line ++ ['\n']).length = cur.length + line.length + 1 := by
      simp only [List.length_append, List.length_cons, List.length_nil]
    have hcclast : (cur ++ line ++ ['\n']).getLast? = some '\n' := by
      rw [show cur ++ line ++ ['\n'] = (cur ++ line) ++ ['\n'] from rfl]
      exact List.getLast?_concat _
    have hsize' : (cur ++ line ++ ['\n']).length + linesLen rest ≤ MAX_CHUNK_SIZE := by
      rw [hccl]
      rw [show linesLen (line :: rest) = line.length + 1 + linesLen rest from rfl] at hsize
      omega
    rw [textAtomsGo, if_neg (by rw [hf]; exact Bool.false_ne_true)]
    dsimp only
    by_cases hbr : ¬false = true ∧ trim line = [] ∧ trim (cur ++ line ++ ['\n']) ≠ [] ∧
        isMajorStructuralBreak (trim (cur ++ line ++ ['\n'])) = true
    · rw [if_pos hbr]
      obtain ⟨-, hlws, hccne, -⟩ := hbr
      have hwsl : ∀ c ∈ line ++ ['\n'], isWs c = true := by
        intro c hc
        rcases List.mem_append.mp hc with h | h
        · exact trim_nil_all_ws hlws c h
        · rw [List.mem_singleton] at h
          subst h
          decide
      have hcceq : trim (cur ++ line ++ ['\n']) = trim cur := by
        rw [List.append_assoc]
        exact trim_append_ws hwsl
      have hcurne : cur ≠ [] := by
        intro h0
        rw [hcceq, h0] at hccne
        exact hccne rfl
      have hcurlast : cur.getLast? = some '\n' := hlast.resolve_left hcurne
      have hlt : (trim cur).length < cur.length := trim_length_lt hcurlast (by decide)
      have hens : ensureAtomicChunkSize
          ⟨ChunkType.paragraph, trim (cur ++ line ++ ['\n']), none⟩ =
          [⟨ChunkType.paragraph, trim (cur ++ line ++ ['\n']), none⟩] := by
        apply ensureAtomicChunkSize_of_le
        show (trim (cur ++ line ++ ['\n'])).length ≤ MAX_CHUNK_SIZE
        rw [hcceq]
        omega
      rw [hens, List.singleton_append]
      obtain ⟨ihAll, ihPack, -⟩ := ih [] lang (fun l hl => hfence l (by simp [hl]))
        (by rw [List.nil_append]; exact htrirest) (Or.inl rfl)
        (by rw [List.length_nil, Nat.zero_add]
            rw [show linesLen (line :: rest) = line.length + 1 + linesLen rest from rfl] at hsize
            omega)
      refine ⟨?_, ?_, ?_⟩
      · intro c hc
        rcases List.mem_cons.mp hc with hc | hc
        · subst hc
          refine ⟨rfl, ?_⟩
          show hasTriple btChar (trim (cur ++ line ++ ['\n'])) = false
          exact hasTriple_trim_false htri'
        · exact ihAll c hc
      · rw [packLen_cons]
        have hjoin : joinLen (textAtomsGo rest [] false lang) ≤
            packLen (textAtomsGo rest [] false lang) + 2 := by
          cases hres : textAtomsGo rest [] false lang with
          | nil =>
            rw [show joinLen ([] : List ContentChunk) = 0 from rfl,
              show packLen ([] : List ContentChunk) = 0 from rfl]
            omega
          | cons r0 rr =>
            rw [packLen_cons, show joinLen (r0 :: rr) = 2 + r0.content.length + joinLen rr
              from rfl]
            omega
        have htl : (trim (cur ++ line ++ ['\n'])).length = (trim cur).length := by
          rw [hcceq]
        rw [List.length_nil, Nat.zero_add] at ihPack
        rw [show linesLen (line :: rest) = line.length + 1 + linesLen rest from rfl]
        dsimp only at htl ⊢
        omega
      · intro hnil
        exact absurd hnil (by simp)
    · rw [if_neg hbr]
      obtain ⟨ihAll, ihPack, ihNil⟩ := ih (cur ++ line ++ ['\n']) lang
        (fun l hl => hfence l (by simp [hl])) htri
        (Or.inr hcclast) hsize'
      refine ⟨ihAll, ?_, ?_⟩
      · rw [show linesLen (line :: rest) = line.length + 1 + linesLen rest from rfl]
        rw [hccl] at ihPack
        omega
      · intro hnil
        obtain ⟨hcc, hrest⟩ := ihNil hnil
        have hws := trim_nil_all_ws hcc
        refine ⟨?_, ?_⟩
        · apply trim_eq_nil_of_ws
          intro c hc
          exact hws c (by simp [hc])
        · intro l hl
          rcases List.mem_cons.mp hl with hl | hl
          · subst hl
            apply trim_eq_nil_of_ws
            intro c hc
            exact hws c (by simp [hc])
          · exact hrest l hl

theorem findGroupGo_merge_all :
    ∀ (l : List ContentChunk) (cur : Str) (best : ContentChunk),
      (∀ c ∈ l, c.type = ChunkType.paragraph ∧ hasTriple btChar c.content = false) →
      hasTriple btChar cur = false →
      cur.length + joinLen l ≤ MAX_CHUNK_SIZE →
      (findGroupGo cur best l).2 = [] ∧
      ((findGroupGo cur best l).1 = best ∨
        (findGroupGo cur best l).1.type = ChunkType.paragraph) := by
  intro l
  induction l with
  | nil => intro cur best _ _ _; exact ⟨rfl, Or.inl rfl⟩
  | cons c rest ih =>
    intro cur best hl htri hsize
    obtain ⟨hcp, hctri⟩ := hl c (by simp)
    rw [findGroupGo, if_neg (by simp [hcp])]
    dsimp only
    have hlen : ¬(cur ++ '\n' :: '\n' :: c.content).length > MAX_CHUNK_SIZE := by
      simp only [List.length_append, List.length_cons]
      rw [show joinLen (c :: rest) = 2 + c.content.length + joinLen rest from rfl] at hsize
      omega
    rw [if_neg hlen]
    have hjoin : hasTriple btChar (cur ++ '\n' :: '\n' :: c.content) = false :=
      hasTriple_join (by decide) htri hctri
    rw [if_neg (show ¬¬hasMatchedCodeBlocks (cur ++ '\n' :: '\n' :: c.content) = true from
      not_not_intro (hasMatchedCodeBlocks_of_no_triple hjoin))]
    obtain ⟨ih1, ih2⟩ := ih (cur ++ '\n' :: '\n' :: c.content)
      ⟨ChunkType.paragraph, trim (cur ++ '\n' :: '\n' :: c.content), none⟩
      (fun d hd => hl d (by simp [hd])) hjoin
      (by simp only [List.length_append, List.length_cons]
          rw [show joinLen (c :: rest) = 2 + c.content.length + joinLen rest from rfl] at hsize
          omega)
    refine ⟨ih1, ?_⟩
    rcases ih2 with h | h
    · right
      rw [h]
    · right
      exact h

theorem imageScanGo_no_match :
    ∀ (fuel : Nat) (pending s : Str), s.length < fuel → imgMatchesGo fuel s = [] →
      imageScanGo fuel pending s =
        if trim (pending ++ s) ≠ [] then splitTextIntoAtomicChunks (trim (pending ++ s))
        else [] := by
  intro fuel
  induction fuel with
  | zero => intro pending s hlen _; exact absurd hlen (Nat.not_lt_zero _)
  | succ fuel ih =>
    intro pending s hlen hm
    rw [imageScanGo.eq_def]
    cases s with
    | nil =>
      dsimp only
      rw [List.append_nil]
    | cons ch rest =>
      dsimp only
      rw [imgMatchesGo.eq_def] at hm
      dsimp only at hm
      cases htry : tryImg (ch :: rest) with
      | some mr =>
        rw [htry] at hm
        obtain ⟨m, r3⟩ := mr
        dsimp only at hm
        exact absurd hm (by simp)
      | none =>
        rw [htry] at hm
        dsimp only at hm ⊢
        rw [ih (pending ++ [ch]) rest (by simp only [List.length_cons] at hlen; omega) hm]
        rw [show (pending ++ [ch]) ++ rest = pending ++ ch :: rest from by
          rw [List.append_assoc]; rfl]

theorem exists_infix_intercalate {sep : Char} :
    ∀ (L : List Str) (p : Str), p ∈ L →
      ∃ a b, List.intercalate [sep] L = a ++ (p ++ b) := by
  intro L
  induction L with
  | nil => intro p hp; exact absurd hp (by simp)
  | cons x L' ih =>
    intro p hp
    rcases List.mem_cons.mp hp with hp | hp
    · subst hp
      cases L' with
      | nil =>
        refine ⟨[], [], ?_⟩
        rw [intercalate_single]
        simp
      | cons y L'' =>
        refine ⟨[], [sep] ++ List.intercalate [sep] (y :: L''), ?_⟩
        rw [intercalate_cons₂]
        simp [List.append_assoc]
    · cases L' with
      | nil => exact absurd hp (by simp)
      | cons y L'' =>
        obtain ⟨a, b, hab⟩ := ih p hp
        refine ⟨x ++ [sep] ++ a, b, ?_⟩
        rw [intercalate_cons₂, hab]
        simp [List.append_assoc]

theorem hasTriple_line_false {x sep : Char} {s l : Str} (h : hasTriple x s = false)
    (hl : l ∈ splitSep sep s) : hasTriple x l = false := by
  obtain ⟨a, b, hab⟩ := exists_infix_intercalate (splitSep sep s) l hl
  rw [intercalate_splitSep] at hab
  rw [hab] at h
  exact hasTriple_prefix_false (hasTriple_suffix_false h)

theorem mem_splitSep_cover {sep : Char} :
    ∀ {s : Str} {c : Char}, c ∈ s → c = sep ∨ ∃ l ∈ splitSep sep s, c ∈ l := by
  intro s
  induction s with
  | nil => intro c hc; exact absurd hc (by simp)
  | cons d rest ih =>
    intro c hc
    by_cases hd : d = sep
    · rcases List.mem_cons.mp hc with hc | hc
      · subst hc
        exact Or.inl hd
      · rcases ih hc with h | ⟨l, hl, hcl⟩
        · exact Or.inl h
        · refine Or.inr ⟨l, ?_, hcl⟩
          rw [show splitSep sep (d :: rest) = [] :: splitSep sep rest from by
            simp [splitSep, hd]]
          exact List.mem_cons_of_mem _ hl
    · cases hs : splitSep sep rest with
      | nil => exact absurd hs (splitSep_ne_nil _ _)
      | cons l0 ls =>
        have hsplit : splitSep sep (d :: rest) = (d :: l0) :: ls :=
          splitSep_cons_of_ne rest hd hs
        rcases List.mem_cons.mp hc with hc | hc
        · subst hc
          exact Or.inr ⟨c :: l0, by rw [hsplit]; exact List.mem_cons_self _ _, by simp⟩
        · rcases ih hc with h | ⟨l, hl, hcl⟩
          · exact Or.inl h
          · rw [hs] at hl
            rcases List.mem_cons.mp hl with hl | hl
            · subst hl
              exact Or.inr ⟨d :: l, by rw [hsplit]; exact List.mem_cons_self _ _,
                List.mem_cons_of_mem _ hcl⟩
            · exact Or.inr ⟨l, by rw [hsplit]; exact List.mem_cons_of_mem _ hl, hcl⟩

theorem trim_eq_nil_of_lines {s : Str} (h : ∀ l ∈ splitLines s, trim l = []) :
    trim s = [] := by
  apply trim_eq_nil_of_ws
  intro c hc
  rcases @mem_splitSep_cover '\n' s c hc with h1 | ⟨l, hl, hcl⟩
  · subst h1
    decide
  · exact trim_nil_all_ws (h l hl) c hcl

theorem trim_clean (s : Str) :
    trim (cleanContentForDiscord s) = cleanContentForDiscord s := by
  unfold cleanContentForDiscord
  exact trim_idem _

theorem optimalRecombineGo_cons (fuel : Nat) (a : ContentChunk) (rest : List ContentChunk) :
    optimalRecombineGo (fuel + 1) (a :: rest) =
      if a.type = ChunkType.image then a :: optimalRecombineGo fuel rest
      else (findGroupGo a.content a rest).1 ::
        optimalRecombineGo fuel (findGroupGo a.content a rest).2 := rfl

theorem splitPipeline_single_paragraph {t : Str} (h1 : t ≠ []) (h2 : t.length < 2000)
    (h3 : imgMatches t = []) (h4 : hasTriple btChar t = false) (htrim : trim t = t) :
    (optimalRecombine (splitIntoAtomicChunks t)).map (fun c => c.type) =
      [ChunkType.paragraph] := by
  have hfences : ∀ l ∈ splitLines t, hasPre ("```".data) (trim l) = false := by
    intro l hl
    cases hp : hasPre ("```".data) (trim l)
    · rfl
    · have hp3 : hasPre [btChar, btChar, btChar] (trim l) = true := by
        rw [show [btChar, btChar, btChar] = "```".data from by decide]
        exact hp
      have h6 := hasTriple_trim (hasPre_three hp3)
      rw [hasTriple_line_false h4 hl] at h6
      exact absurd h6 (by decide)
  have hlin := linesLen_splitSep t
  obtain hmr := textAtomsGo_merge_ready (splitLines t) [] []
    hfences
    (by rw [List.nil_append, show splitLines t = splitSep '\n' t from rfl, joinNl_splitSep]
        exact hasTriple_snoc (by decide) h4)
    (Or.inl rfl)
    (by rw [List.length_nil, show splitLines t = splitSep '\n' t from rfl, hlin]
        show 0 + (t.length + 1) ≤ 2000
        omega)
  obtain ⟨hAll, hPack, hNil⟩ := hmr
  unfold optimalRecombine splitIntoAtomicChunks
  rw [imageScanGo_no_match (t.length + 1) [] t (by omega) h3, List.nil_append, htrim,
    if_pos h1]
  unfold splitTextIntoAtomicChunks
  cases hatoms : textAtomsGo (splitLines t) [] false [] with
  | nil =>
    obtain ⟨-, hallws⟩ := hNil hatoms
    have := trim_eq_nil_of_lines hallws
    rw [htrim] at this
    exact absurd this h1
  | cons a rest =>
    rw [hatoms] at hAll hPack
    have hap : a.type = ChunkType.paragraph := (hAll a (by simp)).1
    rw [show (a :: rest).length = rest.length + 1 from rfl, optimalRecombineGo_cons,
      if_neg (by simp [hap])]
    obtain ⟨hg2, hg1⟩ := findGroupGo_merge_all rest a.content a
      (fun c hc => hAll c (by simp [hc]))
      ((hAll a (by simp)).2)
      (by rw [← packLen_cons]
          rw [List.length_nil, show splitLines t = splitSep '\n' t from rfl, hlin] at hPack
          show packLen (a :: rest) ≤ 2000
          omega)
    rw [hg2, optimalRecombineGo_nil, List.map_cons, List.map_nil]
    rcases hg1 with h | h
    · rw [h, hap]
    · rw [h]

/-- C9 (amended): a document whose sanitized, link-resolved content is
non-empty, shorter than 2000 characters, free of image references and free of
triple-backtick fence markers splits into exactly one chunk of kind
`paragraph`.  The original claim omits the fence condition; it is refuted by
`C9_single_chunk_kind_counterexample`, where a short fenced code block yields
one chunk of kind `code`. -/
theorem C9_single_paragraph_amended (content : Str) (sourceUrl : Option UrlBase)
    (h1 : cleanContentForDiscord (resolveRelativeLinks content sourceUrl) ≠ [])
    (h2 : (cleanContentForDiscord (resolveRelativeLinks content sourceUrl)).length < 2000)
    (h3 : imgMatches (cleanContentForDiscord (resolveRelativeLinks content sourceUrl)) = [])
    (h4 : hasTriple btChar
      (cleanContentForDiscord (resolveRelativeLinks content sourceUrl)) = false) :
    (splitContent content sourceUrl).map (fun c => c.type) = [ChunkType.paragraph] := by
  unfold splitContent intelligentSplit
  exact splitPipeline_single_paragraph h1 h2 h3 h4 (trim_clean _)

theorem C9_single_paragraph_amended_witness :
    (cleanContentForDiscord (resolveRelativeLinks ("hello world".data) none) ≠ [] ∧
     (cleanContentForDiscord (resolveRelativeLinks ("hello world".data) none)).length < 2000 ∧
     imgMatches (cleanContentForDiscord (resolveRelativeLinks ("hello world".data) none)) = [] ∧
     hasTriple btChar
       (cleanContentForDiscord (resolveRelativeLinks ("hello world".data) none)) = false) ∧
    (splitContent ("hello world".data) none).map (fun c => c.type) = [ChunkType.paragraph] :=
  ⟨by decide,
    C9_single_paragraph_amended ("hello world".data) none (by decide) (by decide) (by decide)
      (by decide)⟩

/-! ### Claim C1 counterexample: an oversize image reference -/

theorem takeWhile_replicate_append {p : Char → Bool} {c : Char} (h : p c = true)
    (n : Nat) (rest : Str) :
    (List.replicate n c ++ rest).takeWhile p = List.replicate n c ++ rest.takeWhile p := by
  induction n with
  | zero => simp
  | succ n ih =>
    rw [List.replicate_succ, List.cons_append, List.takeWhile_cons, if_pos h, ih,
      List.cons_append]

/-- An image reference `![a](uu…u)` with a 2001-character target: 2007
characters in total. -/
def C1cex : Str := '!' :: '[' :: 'a' :: ']' :: '(' :: (List.replicate 2001 'u' ++ [')'])

theorem C1cex_length : C1cex.length = 2007 := by
  simp [C1cex]

theorem tryImg_C1cex : tryImg C1cex = some (C1cex, []) := by
  have h1 : (List.replicate 2001 'u' ++ [')'] : Str).takeWhile (fun c => decide (c ≠ ')')) =
      List.replicate 2001 'u' := by
    rw [takeWhile_replicate_append (by decide)]
    simp
  have h2 : (List.replicate 2001 'u' ++ [')'] : Str).drop (List.replicate 2001 'u').length =
      [')'] := List.drop_left _ _
  unfold tryImg C1cex
  rw [if_pos (show hasPre ['!', '[']
    ('!' :: '[' :: 'a' :: ']' :: '(' :: (List.replicate 2001 'u' ++ [')'])) = true from rfl)]
  dsimp only [List.drop_succ_cons, List.drop_zero]
  rw [show (('a' :: ']' :: '(' :: (List.replicate 2001 'u' ++ [')'])).takeWhile
      (fun c => decide (c ≠ ']')) : Str) = ['a'] by
    rw [List.takeWhile_cons, if_pos (by decide), List.takeWhile_cons, if_neg (by decide)]]
  dsimp only [List.length_cons, List.length_nil, List.drop_succ_cons, List.drop_zero]
  rw [if_pos (show hasPre [']', '('] (']' :: '(' :: (List.replicate 2001 'u' ++ [')'])) = true
    from rfl)]
  rw [h1, if_neg (by
    intro hrep
    have hlen := congrArg List.length hrep
    simp only [List.length_replicate, List.length_nil] at hlen
    omega), h2]
  rw [if_pos (show ([')'] : Str).head? = some ')' from rfl)]
  simp

theorem imageScanGo_nil_nil : ∀ n, imageScanGo n [] [] = [] := by
  intro n
  cases n with
  | zero => rfl
  | succ n => rfl

theorem splitIntoAtomicChunks_C1cex :
    splitIntoAtomicChunks C1cex = [⟨ChunkType.image, C1cex, none⟩] := by
  unfold splitIntoAtomicChunks
  rw [imageScanGo.eq_def]
  dsimp only
  rw [show C1cex = '!' :: ('[' :: 'a' :: ']' :: '(' :: (List.replicate 2001 'u' ++ [')']))
    from rfl]
  dsimp only
  rw [show tryImg ('!' :: ('[' :: 'a' :: ']' :: '(' :: (List.replicate 2001 'u' ++ [')']))) =
      some (C1cex, []) from tryImg_C1cex]
  dsimp only
  rw [if_neg (by simp [trim, trimL, trimR]), imageScanGo_nil_nil]
  simp [C1cex]

theorem optimalRecombine_single_image {c : ContentChunk} (h : c.type = ChunkType.image) :
    optimalRecombine [c] = [c] := by
  unfold optimalRecombine
  rw [optimalRecombineGo.eq_def]
  dsimp only
  rw [if_pos h]
  rfl

theorem clean_C1cex : cleanContentForDiscord C1cex = C1cex := by
  have hnonl : ∀ c ∈ C1cex, c ≠ '\n' := by
    intro c hc
    simp only [C1cex, List.mem_cons, List.mem_append, List.mem_replicate,
      List.mem_singleton, List.not_mem_nil, or_false] at hc
    rcases hc with rfl | rfl | rfl | rfl | rfl | ⟨-, rfl⟩ | rfl <;> decide
  rw [clean_eq_trim]
  · apply trim_eq_self
    · intro c h
      rw [show C1cex.head? = some '!' from rfl] at h
      injection h with h
      subst h; rfl
    · intro c h
      rw [show C1cex = ('!' :: '[' :: 'a' :: ']' :: '(' :: List.replicate 2001 'u') ++ [')']
          by simp [C1cex], List.getLast?_concat] at h
      injection h with h
      subst h; rfl
  · apply hasTriple_eq_false_of_not_mem
    intro hmem
    simp only [C1cex, List.mem_cons, List.mem_append, List.mem_replicate,
      List.mem_singleton] at hmem
    rcases hmem with h | h | h | h | h | ⟨-, h⟩ | h | h <;> simp at h
  · intro l hl
    rw [show splitLines C1cex = [C1cex] from splitSep_no_sep hnonl,
      List.mem_singleton] at hl
    subst hl
    intro hstar
    have := congrArg List.length hstar
    rw [C1cex_length] at this
    simp [star3] at this
  · apply hasTriple_eq_false_of_not_mem
    intro hmem
    exact hnonl '\n' hmem rfl
  · apply noTrailST_of_no_st
    intro c hc
    simp only [C1cex, List.mem_cons, List.mem_append, List.mem_replicate,
      List.mem_singleton, List.not_mem_nil, or_false] at hc
    rcases hc with rfl | rfl | rfl | rfl | rfl | ⟨-, rfl⟩ | rfl <;> decide

/-! ### Fence counting under trimming -/

theorem countFences_cons_ne {c : Char} (s : Str) (hc : c ≠ btChar) :
    countFences (c :: s) = countFences s := by
  match s with
  | [] => rfl
  | [d] => rfl
  | d :: e :: r =>
    rw [countFences, if_neg (by simp [hc])]

theorem countFences_nb_append {a : Str} (s : Str) (ha : ∀ c ∈ a, c ≠ btChar) :
    countFences (a ++ s) = countFences s := by
  induction a with
  | nil => rfl
  | cons c rest ih =>
    rw [List.cons_append, countFences_cons_ne _ (ha c (by simp)),
      ih (fun d hd => ha d (by simp [hd]))]

theorem countFences_eq_zero {s : Str} (h : ∀ c ∈ s, c ≠ btChar) :
    countFences s = 0 := by
  induction s with
  | nil => rfl
  | cons c rest ih =>
    rw [countFences_cons_ne _ (h c (by simp)), ih (fun d hd => h d (by simp [hd]))]

theorem countFences_cons_step {c : Char} {t : Str}
    (h : ¬(c = btChar ∧ t.head? = some btChar ∧ t.tail.head? = some btChar)) :
    countFences (c :: t) = countFences t := by
  match t with
  | [] => rfl
  | [d] => rfl
  | d :: e :: r =>
    rw [countFences, if_neg (by
      rintro ⟨h1, h2, h3⟩
      exact h ⟨h1, by simp [h2], by simp [h3]⟩)]

theorem countFences_append_nb_aux :
    ∀ (n : Nat) (s b : Str), s.length ≤ n → (∀ c ∈ b, c ≠ btChar) →
      countFences (s ++ b) = countFences s := by
  intro n
  induction n with
  | zero =>
    intro s b hlen hb
    have hs : s = [] := List.length_eq_zero.mp (Nat.le_zero.mp hlen)
    subst hs
    exact countFences_eq_zero hb
  | succ n ih =>
    intro s b hlen hb
    match s with
    | [] => exact countFences_eq_zero hb
    | c :: s' =>
      by_cases htrip : c = btChar ∧ s'.head? = some btChar ∧ s'.tail.head? = some btChar
      · match s', htrip with
        | [], htrip => simp at htrip
        | [d], htrip => simp at htrip
        | d :: e :: r, htrip =>
          obtain ⟨h1, h2, h3⟩ := htrip
          simp only [List.head?_cons, Option.some.injEq, List.tail_cons] at h2 h3
          rw [show (c :: d :: e :: r) ++ b = c :: d :: e :: (r ++ b) from rfl,
            countFences, if_pos ⟨h1, h2, h3⟩, countFences, if_pos ⟨h1, h2, h3⟩,
            ih r b (by simp only [List.length_cons] at hlen; omega) hb]
      · have hstep2 : countFences (c :: s') = countFences s' := countFences_cons_step htrip
        have htrip' : ¬(c = btChar ∧ (s' ++ b).head? = some btChar ∧
            (s' ++ b).tail.head? = some btChar) := by
          rintro ⟨h1, h2, h3⟩
          match s' with
          | [] =>
            cases b with
            | nil => simp at h2
            | cons b0 b' =>
              simp only [List.nil_append, List.head?_cons, Option.some.injEq] at h2
              exact hb b0 (by simp) h2
          | [d] =>
            cases b with
            | nil => simp at h3
            | cons b0 b' =>
              simp only [List.singleton_append, List.tail_cons, List.head?_cons,
                Option.some.injEq] at h3
              exact hb b0 (by simp) h3
          | d :: e :: r =>
            exact htrip ⟨h1, by simpa using h2, by simpa using h3⟩
        rw [show (c :: s') ++ b = c :: (s' ++ b) from rfl, countFences_cons_step htrip',
          ih s' b (by simp only [List.length_cons] at hlen; omega) hb]
        exact hstep2.symm

theorem countFences_append_nb {s b : Str} (hb : ∀ c ∈ b, c ≠ btChar) :
    countFences (s ++ b) = countFences s :=
  countFences_append_nb_aux s.length s b (Nat.le_refl _) hb

theorem isWs_ne_bt {c : Char} (h : isWs c = true) : c ≠ btChar := by
  intro hc
  subst hc
  simp [isWs, btChar, Char.ofNat] at h

theorem countFences_trim (s : Str) : countFences (trim s) = countFences s := by
  unfold trim trimL trimR
  have h1 : countFences (s.dropWhile isWs) = countFences s := by
    conv_rhs => rw [← List.takeWhile_append_dropWhile isWs s]
    rw [countFences_nb_append _ (fun c hc =>
      isWs_ne_bt (List.mem_takeWhile_imp hc))]
  rw [← h1]
  set t := s.dropWhile isWs with ht
  have hsplit : t = (t.reverse.dropWhile isWs).reverse ++
      (t.reverse.takeWhile isWs).reverse := by
    conv_lhs => rw [← List.reverse_reverse t, ← List.takeWhile_append_dropWhile isWs t.reverse]
    rw [List.reverse_append]
  conv_rhs => rw [hsplit]
  rw [countFences_append_nb (fun c hc => isWs_ne_bt (by
    have : c ∈ t.reverse.takeWhile isWs := by simpa using hc
    exact List.mem_takeWhile_imp this))]

/-! ### Fence parity through recombination (claim C2) -/

theorem findGroupGo_fst_fences :
    ∀ (l : List ContentChunk) (cur : Str) (best : ContentChunk),
      (findGroupGo cur best l).1 = best ∨
        countFences (findGroupGo cur best l).1.content % 2 = 0 := by
  intro l
  induction l with
  | nil => intro cur best; left; rfl
  | cons c rest ih =>
    intro cur best
    rw [findGroupGo]
    by_cases h1 : c.type = ChunkType.image
    · rw [if_pos h1]; left; rfl
    · rw [if_neg h1]
      dsimp only
      by_cases h2 : (cur ++ '\n' :: '\n' :: c.content).length > MAX_CHUNK_SIZE
      · rw [if_pos h2]; left; rfl
      · rw [if_neg h2]
        by_cases h3 : ¬hasMatchedCodeBlocks (cur ++ '\n' :: '\n' :: c.content) = true
        · rw [if_pos h3]; left; rfl
        · rw [if_neg h3]
          rcases ih (cur ++ '\n' :: '\n' :: c.content)
              ⟨ChunkType.paragraph, trim (cur ++ '\n' :: '\n' :: c.content), none⟩ with h | h
          · right
            rw [h]
            dsimp only
            rw [countFences_trim]
            simpa [hasMatchedCodeBlocks] using not_not.mp h3
          · right; exact h

theorem findGroupGo_snd_sub :
    ∀ (l : List ContentChunk) (cur : Str) (best : ContentChunk),
      ∀ c ∈ (findGroupGo cur best l).2, c ∈ l := by
  intro l
  induction l with
  | nil => intro cur best c hc; simp [findGroupGo] at hc
  | cons a rest ih =>
    intro cur best c hc
    rw [findGroupGo] at hc
    by_cases h1 : a.type = ChunkType.image
    · rw [if_pos h1] at hc; exact hc
    · rw [if_neg h1] at hc
      dsimp only at hc
      by_cases h2 : (cur ++ '\n' :: '\n' :: a.content).length > MAX_CHUNK_SIZE
      · rw [if_pos h2] at hc; exact hc
      · rw [if_neg h2] at hc
        by_cases h3 : ¬hasMatchedCodeBlocks (cur ++ '\n' :: '\n' :: a.content) = true
        · rw [if_pos h3] at hc; exact hc
        · rw [if_neg h3] at hc
          exact List.mem_cons_of_mem a (ih _ _ c hc)

theorem optimalRecombineGo_fences :
    ∀ (fuel : Nat) (l : List ContentChunk),
      ∀ c ∈ optimalRecombineGo fuel l, countFences c.content % 2 = 0 ∨ c ∈ l := by
  intro fuel
  induction fuel with
  | zero => intro l c hc; simp [optimalRecombineGo] at hc
  | succ fuel ih =>
    intro l c hc
    rw [optimalRecombineGo.eq_def] at hc
    cases l with
    | nil => simp at hc
    | cons a rest =>
      dsimp only at hc
      by_cases h1 : a.type = ChunkType.image
      · rw [if_pos h1] at hc
        rcases List.mem_cons.mp hc with hc | hc
        · subst hc; right; exact List.mem_cons_self _ _
        · rcases ih rest c hc with h | h
          · left; exact h
          · right; exact List.mem_cons_of_mem a h
      · rw [if_neg h1] at hc
        rcases List.mem_cons.mp hc with hc | hc
        · subst hc
          rcases findGroupGo_fst_fences rest a.content a with h | h
          · right; rw [h]; exact List.mem_cons_self _ _
          · left; exact h
        · rcases ih _ c hc with h | h
          · left; exact h
          · right; exact List.mem_cons_of_mem a (findGroupGo_snd_sub rest a.content a c h)

/-- C2 (amended): every chunk returned by `splitContent` either contains an
even number of triple-backtick fence markers, or is a single atomic chunk
passed through recombination untouched — the recombiner never merges a group
with an odd fence total, so a fence imbalance in the output is always already
present in the atomic decomposition of the sanitized input.  The original
claim, which asserts an even fence count for every output chunk, is refuted
by `C2_fence_balance_counterexample`. -/
theorem C2_fence_balance_amended (content : Str) (sourceUrl : Option UrlBase) :
    ∀ c ∈ splitContent content sourceUrl,
      countFences c.content % 2 = 0 ∨
        c ∈ splitIntoAtomicChunks
          (cleanContentForDiscord (resolveRelativeLinks content sourceUrl)) := by
  intro c hc
  unfold splitContent intelligentSplit optimalRecombine at hc
  exact optimalRecombineGo_fences _ _ c hc

theorem C2_fence_balance_amended_witness :
    (⟨ChunkType.paragraph, "hi".data, none⟩ : ContentChunk) ∈ splitContent ("hi".data) none ∧
    (countFences (⟨ChunkType.paragraph, "hi".data, none⟩ : ContentChunk).content % 2 = 0 ∨
      (⟨ChunkType.paragraph, "hi".data, none⟩ : ContentChunk) ∈ splitIntoAtomicChunks
        (cleanContentForDiscord (resolveRelativeLinks ("hi".data) none))) :=
  ⟨by decide, C2_fence_balance_amended ("hi".data) none _ (by decide)⟩

/-! ### Image isolation through the pipeline (claim C6) -/

theorem filter_eq_nil_of_all {p : ContentChunk → Bool} :
    ∀ {l : List ContentChunk}, (∀ c ∈ l, p c = false) → l.filter p = [] := by
  intro l
  induction l with
  | nil => intro _; rfl
  | cons a r ih =>
    intro h
    rw [List.filter_cons, if_neg (by simp [h a (by simp)])]
    exact ih (fun c hc => h c (by simp [hc]))

theorem filter_image_splitText (t : Str) :
    (splitTextIntoAtomicChunks t).filter (fun c => c.type = ChunkType.image) = [] := by
  apply filter_eq_nil_of_all
  intro c hc
  have := (splitTextIntoAtomicChunks_bounds hc).2
  simp [this]

theorem imageScanGo_filter :
    ∀ (fuel : Nat) (pending s : Str),
      ((imageScanGo fuel pending s).filter (fun c => c.type = ChunkType.image)).map
        (fun c => c.content) = imgMatchesGo fuel s := by
  intro fuel
  induction fuel with
  | zero => intro pending s; rfl
  | succ fuel ih =>
    intro pending s
    rw [imageScanGo.eq_def, imgMatchesGo.eq_def]
    cases s with
    | nil =>
      dsimp only
      by_cases h : trim pending ≠ []
      · rw [if_pos h, filter_image_splitText]
        rfl
      · rw [if_neg h]
        rfl
    | cons ch rest =>
      dsimp only
      have hpend : (if trim pending ≠ [] then splitTextIntoAtomicChunks (trim pending)
          else []).filter (fun c => decide (c.type = ChunkType.image)) = [] := by
        by_cases h : trim pending ≠ []
        · rw [if_pos h]; exact filter_image_splitText _
        · rw [if_neg h]; rfl
      cases htry : tryImg (ch :: rest) with
      | some mr =>
        obtain ⟨m, r3⟩ := mr
        dsimp only
        rw [List.filter_append, hpend, List.nil_append, List.filter_cons,
          if_pos (show decide ((⟨ChunkType.image, m, none⟩ : ContentChunk).type =
            ChunkType.image) = true from rfl),
          List.map_cons, ih]
      | none =>
        dsimp only
        exact ih (pending ++ [ch]) rest

theorem splitIntoAtomicChunks_filter_image (t : Str) :
    ((splitIntoAtomicChunks t).filter (fun c => c.type = ChunkType.image)).map
      (fun c => c.content) = imgMatches t :=
  imageScanGo_filter _ _ _

theorem findGroupGo_snd_length :
    ∀ (l : List ContentChunk) (cur : Str) (best : ContentChunk),
      (findGroupGo cur best l).2.length ≤ l.length := by
  intro l
  induction l with
  | nil => intro cur best; exact Nat.le_refl _
  | cons c rest ih =>
    intro cur best
    rw [findGroupGo]
    by_cases h1 : c.type = ChunkType.image
    · rw [if_pos h1]
    · rw [if_neg h1]
      dsimp only
      by_cases h2 : (cur ++ '\n' :: '\n' :: c.content).length > MAX_CHUNK_SIZE
      · rw [if_pos h2]
      · rw [if_neg h2]
        by_cases h3 : ¬hasMatchedCodeBlocks (cur ++ '\n' :: '\n' :: c.content) = true
        · rw [if_pos h3]
        · rw [if_neg h3]
          calc (findGroupGo (cur ++ '\n' :: '\n' :: c.content)
                ⟨ChunkType.paragraph, trim (cur ++ '\n' :: '\n' :: c.content), none⟩ rest).2.length
              ≤ rest.length := ih _ _
            _ ≤ (c :: rest).length := by rw [List.length_cons]; omega

theorem findGroupGo_filter_image :
    ∀ (l : List ContentChunk) (cur : Str) (best : ContentChunk),
      ¬best.type = ChunkType.image →
      ¬(findGroupGo cur best l).1.type = ChunkType.image ∧
      (findGroupGo cur best l).2.filter (fun c => c.type = ChunkType.image) =
        l.filter (fun c => c.type = ChunkType.image) := by
  intro l
  induction l with
  | nil => intro cur best hb; exact ⟨hb, rfl⟩
  | cons c rest ih =>
    intro cur best hb
    rw [findGroupGo]
    by_cases h1 : c.type = ChunkType.image
    · rw [if_pos h1]; exact ⟨hb, rfl⟩
    · rw [if_neg h1]
      dsimp only
      by_cases h2 : (cur ++ '\n' :: '\n' :: c.content).length > MAX_CHUNK_SIZE
      · rw [if_pos h2]; exact ⟨hb, rfl⟩
      · rw [if_neg h2]
        by_cases h3 : ¬hasMatchedCodeBlocks (cur ++ '\n' :: '\n' :: c.content) = true
        · rw [if_pos h3]; exact ⟨hb, rfl⟩
        · rw [if_neg h3]
          obtain ⟨hg1, hg2⟩ := ih (cur ++ '\n' :: '\n' :: c.content)
            ⟨ChunkType.paragraph, trim (cur ++ '\n' :: '\n' :: c.content), none⟩ (by simp)
          refine ⟨hg1, ?_⟩
          rw [hg2, List.filter_cons, if_neg (by simp [h1])]

theorem optimalRecombineGo_filter_image :
    ∀ (fuel : Nat) (l : List ContentChunk), l.length ≤ fuel →
      (optimalRecombineGo fuel l).filter (fun c => c.type = ChunkType.image) =
        l.filter (fun c => c.type = ChunkType.image) := by
  intro fuel
  induction fuel with
  | zero =>
    intro l hlen
    have hl : l = [] := List.length_eq_zero.mp (Nat.le_zero.mp hlen)
    subst hl
    rfl
  | succ fuel ih =>
    intro l hlen
    rw [optimalRecombineGo.eq_def]
    cases l with
    | nil => rfl
    | cons a rest =>
      dsimp only
      by_cases h1 : a.type = ChunkType.image
      · rw [if_pos h1, List.filter_cons, List.filter_cons, if_pos (by simp [h1]),
          if_pos (by simp [h1]),
          ih rest (by simp only [List.length_cons] at hlen; omega)]
      · rw [if_neg h1]
        obtain ⟨hg1, hg2⟩ := findGroupGo_filter_image rest a.content a h1
        rw [List.filter_cons, if_neg (by simp [hg1]), List.filter_cons, if_neg (by simp [h1])]
        rw [ih _ (by
          have := findGroupGo_snd_length rest a.content a
          simp only [List.length_cons] at hlen
          omega), hg2]

/-- C6 (amended): the image chunks of the output of `splitContent` are, in
order, exactly the markdown image references matched in the sanitized,
link-resolved content — each image chunk consists solely of its reference,
images are never merged into other chunks and never split.  The original
claim counts the image references of the raw input; it is refuted by
`C6_image_count_counterexample`, where sanitization removes an image
reference (inside a `---`-delimited region) before the split. -/
theorem C6_image_isolation_amended (content : Str) (sourceUrl : Option UrlBase) :
    ((splitContent content sourceUrl).filter (fun c => c.type = ChunkType.image)).map
      (fun c => c.content) =
      imgMatches (cleanContentForDiscord (resolveRelativeLinks content sourceUrl)) := by
  unfold splitContent intelligentSplit optimalRecombine
  rw [optimalRecombineGo_filter_image _ _ (Nat.le_succ _)]
  exact splitIntoAtomicChunks_filter_image _

/-- C1 counterexample: an image reference with a 2001-character URL is
returned by `splitContent` as a single image chunk of 2007 characters, so not
every chunk is within the 2000-character ceiling. -/
theorem C1_ceiling_counterexample :
    (splitContent C1cex none).map (fun c => (c.type, c.content.length)) =
      [(ChunkType.image, 2007)] := by
  unfold splitContent intelligentSplit
  rw [show resolveRelativeLinks C1cex none = C1cex from rfl, clean_C1cex,
    splitIntoAtomicChunks_C1cex, optimalRecombine_single_image rfl]
  simp [C1cex_length]

end ContentSplitter

namespace ContentSplitter

/-! ### Claim C7: URL resolution -/

/-- The parsed form of `https://example.com/docs/current/page.md`. -/
def exampleBase : UrlBase :=
  ⟨"https:".data, "example.com".data, "/docs/current/page.md".data,
   "https://example.com/docs/current/page.md".data⟩

theorem relPathFold_pop :
    ∀ (n : Nat) (l : List Str), l.length ≤ n →
      (List.replicate n (['.', '.'] : Str)).foldl
        (fun acc part =>
          if part = ['.', '.'] then acc.dropLast
          else if part ≠ [] ∧ part ≠ ['.'] then acc ++ [part]
          else acc) l = [] := by
  intro n
  induction n with
  | zero =>
    intro l hl
    have : l = [] := List.length_eq_zero.mp (Nat.le_zero.mp hl)
    simp [this]
  | succ m ih =>
    intro l hl
    rw [List.replicate_succ, List.foldl_cons, if_pos rfl]
    apply ih
    have := l.length_dropLast
    omega

theorem hasPre_dotSlash_ddot (z : Str) : hasPre ['.', '/'] ('.' :: '.' :: z) = false := by
  simp [hasPre]

/-- C7: with source URL `https://example.com/docs/current/page.md` the
resolver rewrites `./y.md` to `https://example.com/docs/current/y.md` and
`../z.md` to `https://example.com/docs/z.md`; and for every base path, a
relative path of `n` `..` segments with `n` at least the number of base
segments resolves to the root `/` (parent navigation never escapes the root). -/
theorem C7_url_resolution :
    resolveUrl ("./y.md".data) exampleBase = "https://example.com/docs/current/y.md".data ∧
    resolveUrl ("../z.md".data) exampleBase = "https://example.com/docs/z.md".data ∧
    ∀ (basePath : Str) (n : Nat),
      ((splitSep '/' basePath).filter (fun part => part ≠ [])).length ≤ n →
      resolveRelativePath basePath
        (List.intercalate ['/'] (List.replicate n (['.', '.'] : Str))) = ['/'] := by
  refine ⟨by decide, by decide, ?_⟩
  intro basePath n hn
  unfold resolveRelativePath
  cases n with
  | zero =>
    have hb : (splitSep '/' basePath).filter (fun part => part ≠ []) = [] :=
      List.length_eq_zero.mp (Nat.le_zero.mp hn)
    simp only [ne_eq, decide_not] at hb
    simp [hasPre, splitSep, intercalate_nil, hb]
  | succ m =>
    have hrep : List.replicate (m + 1) (['.', '.'] : Str) =
        ['.', '.'] :: List.replicate m (['.', '.'] : Str) := List.replicate_succ ..
    have hpre : hasPre ['.', '/']
        (List.intercalate ['/'] (List.replicate (m + 1) (['.', '.'] : Str))) = false := by
      rw [hrep]
      cases hm : List.replicate m (['.', '.'] : Str) with
      | nil => rw [intercalate_single]; exact hasPre_dotSlash_ddot []
      | cons y L => rw [intercalate_cons₂]; exact hasPre_dotSlash_ddot _
    have hsplit : splitSep '/'
        (List.intercalate ['/'] (List.replicate (m + 1) (['.', '.'] : Str))) =
        List.replicate (m + 1) (['.', '.'] : Str) := by
      apply splitSep_intercalate (by simp)
      intro p hp c hc
      rw [List.eq_of_mem_replicate hp] at hc
      have hcd : c = '.' := by
        rcases (by simpa using hc : c = '.' ∨ c = '.') with h | h <;> exact h
      subst hcd; decide
    simp only [hpre, Bool.false_eq_true, if_false, hsplit]
    rw [relPathFold_pop (m + 1) _ hn, intercalate_nil]

theorem C7_url_resolution_witness :
    resolveRelativePath ("/docs/current/".data)
      (List.intercalate ['/'] (List.replicate 5 (['.', '.'] : Str))) = ['/'] :=
  C7_url_resolution.2.2 ("/docs/current/".data) 5 (by decide)

/-! ### Claim C3: the oversize-unit splitter `splitLargeChunk` -/

theorem tryHrAt_not_rc {c : Char} (h : isRc c = false) (s : Str) :
    tryHrAt (c :: s) = none := by
  simp [tryHrAt, h]

theorem hrSplitGo_step_a (fuel : Nat) (cur : Str) (al : Bool) (s : Str) :
    hrSplitGo (fuel + 1) cur al ('a' :: s) = hrSplitGo fuel (cur ++ ['a']) false s := by
  cases al <;> simp [hrSplitGo, tryHrAt_not_rc (by decide : isRc 'a' = false)]

theorem hrSplitGo_skip_a :
    ∀ (k fuel : Nat) (cur : Str) (al : Bool) (rest : Str),
      hrSplitGo (k + (fuel + 1)) cur al (List.replicate (k + 1) 'a' ++ rest) =
        hrSplitGo fuel (cur ++ List.replicate (k + 1) 'a') false rest := by
  intro k
  induction k with
  | zero =>
    intro fuel cur al rest
    rw [Nat.zero_add, show List.replicate 1 'a' ++ rest = 'a' :: rest from rfl]
    exact hrSplitGo_step_a fuel cur al rest
  | succ m ih =>
    intro fuel cur al rest
    rw [show List.replicate (m + 1 + 1) 'a' ++ rest =
          'a' :: (List.replicate (m + 1) 'a' ++ rest) from by
        rw [List.replicate_succ]; rfl,
      show (m + 1) + (fuel + 1) = (m + (fuel + 1)) + 1 from by omega,
      hrSplitGo_step_a, ih, List.append_assoc, List.singleton_append,
      ← List.replicate_succ]

theorem hrSplitGo_tail_cex (cur : Str) :
    hrSplitGo 7 cur false ('\n' :: '-' :: '-' :: '-' :: '\n' :: 'b' :: []) =
      [cur ++ ['\n'], ['\n', 'b']] := by
  simp [hrSplitGo, tryHrAt, hrmGoRc, hrmGoWs, isRc, isWs]

/-- The C3 counterexample content: a 3000-character line followed by a
horizontal rule and a final short line. -/
def C3cex : Str := List.replicate 3000 'a' ++ ('\n' :: '-' :: '-' :: '-' :: '\n' :: 'b' :: [])

theorem C3cex_parts :
    hrSplitGo (C3cex.length + 1) [] true C3cex =
      [List.replicate 3000 'a' ++ ['\n'], ['\n', 'b']] := by
  have hlen : C3cex.length = 3006 := by
    unfold C3cex
    rw [List.length_append, List.length_replicate]
    rfl
  rw [hlen]
  unfold C3cex
  rw [show (3006 + 1 : Nat) = 2999 + (7 + 1) from rfl,
    show (3000 : Nat) = 2999 + 1 from rfl,
    hrSplitGo_skip_a, List.nil_append, hrSplitGo_tail_cex]

theorem replicate_a_ne_nil : List.replicate 3000 'a' ≠ ([] : Str) := by
  intro h
  have := congrArg List.length h
  simp only [List.length_replicate, List.length_nil] at this
  omega

theorem trim_replicate_a_nl (n : Nat) :
    trim (List.replicate n 'a' ++ ['\n']) = List.replicate n 'a' := by
  cases n with
  | zero => decide
  | succ m =>
    unfold trim trimL trimR
    rw [show List.replicate (m + 1) 'a' ++ ['\n'] =
          'a' :: (List.replicate m 'a' ++ ['\n']) from by
        rw [List.replicate_succ]; rfl,
      List.dropWhile_cons, if_neg (by decide : ¬(isWs 'a' = true)),
      show ('a' :: (List.replicate m 'a' ++ ['\n'])) =
          (List.replicate (m + 1) 'a' ++ ['\n']) from by
        rw [List.replicate_succ]; rfl,
      List.reverse_append, List.reverse_replicate,
      show (['\n'] : Str).reverse = ['\n'] from rfl, List.singleton_append,
      List.dropWhile_cons, if_pos (by decide : isWs '\n' = true),
      List.replicate_succ, List.dropWhile_cons, if_neg (by decide : ¬(isWs 'a' = true)),
      ← List.replicate_succ, List.reverse_replicate]

theorem hrAssemble_cons₂ (p q : Str) (rest : List Str) :
    hrAssemble (p :: q :: rest) =
      (if trim p ≠ [] then [⟨ChunkType.paragraph, trim p, none⟩] else []) ++
        ⟨ChunkType.paragraph, placeholderRule, none⟩ :: hrAssemble (q :: rest) := rfl

theorem trySplitByHorizontalRules_C3cex :
    trySplitByHorizontalRules ⟨ChunkType.paragraph, C3cex, none⟩ =
      [⟨ChunkType.paragraph, List.replicate 3000 'a', none⟩,
       ⟨ChunkType.paragraph, placeholderRule, none⟩,
       ⟨ChunkType.paragraph, ['b'], none⟩] := by
  unfold trySplitByHorizontalRules
  dsimp only
  rw [C3cex_parts]
  rw [if_neg (by norm_num)]
  rw [hrAssemble_cons₂, trim_replicate_a_nl, if_pos replicate_a_ne_nil,
    show hrAssemble [['\n', 'b']] = [⟨ChunkType.paragraph, ['b'], none⟩] from by decide]
  rfl

/-- C3 counterexample: on a paragraph chunk holding a 3000-character line, a
horizontal rule and a short line, `splitLargeChunk` returns the result of the
horizontal-rule strategy even though its first piece is 3000 characters long
— far over the 2000-character limit — so the first strategy to yield more
than one piece wins regardless of whether its pieces are in-limit. -/
theorem C3_priority_order_counterexample :
    (splitLargeChunk ⟨ChunkType.paragraph, C3cex, none⟩).map
        (fun c => (c.type, c.content.length)) =
      [(ChunkType.paragraph, 3000), (ChunkType.paragraph, 53), (ChunkType.paragraph, 1)] ∧
    MAX_CHUNK_SIZE < 3000 := by
  constructor
  · unfold splitLargeChunk
    dsimp only
    rw [trySplitByHorizontalRules_C3cex, if_pos (by norm_num)]
    simp only [List.map_cons, List.map_nil, List.length_replicate]
    decide
  · decide

/-- C3 (amended): `splitLargeChunk` tries its strategies in the fixed order
horizontal-rule split, paragraph split, code-block line split, sentence
split, hard character split — but the horizontal-rule and paragraph results
are returned as soon as they yield more than one piece, with no per-piece
size check (see `C3_priority_order_counterexample`); the code-block line
split is applied to every code chunk over 1900 characters regardless of how
many pieces it yields; and only the sentence strategy is additionally gated
on the chunk still exceeding 2000 characters. -/
theorem C3_priority_order_amended (chunk : ContentChunk) :
    ((trySplitByHorizontalRules chunk).length > 1 →
        splitLargeChunk chunk = trySplitByHorizontalRules chunk) ∧
    ((trySplitByHorizontalRules chunk).length ≤ 1 →
        (trySplitByParagraphs chunk).length > 1 →
        splitLargeChunk chunk = trySplitByParagraphs chunk) ∧
    ((trySplitByHorizontalRules chunk).length ≤ 1 →
        (trySplitByParagraphs chunk).length ≤ 1 →
        chunk.type = ChunkType.code → chunk.content.length > MAX_CODE_BLOCK_SIZE →
        splitLargeChunk chunk = splitLargeCodeBlock chunk) ∧
    ((trySplitByHorizontalRules chunk).length ≤ 1 →
        (trySplitByParagraphs chunk).length ≤ 1 →
        ¬(chunk.type = ChunkType.code ∧ chunk.content.length > MAX_CODE_BLOCK_SIZE) →
        chunk.content.length > MAX_CHUNK_SIZE → (trySplitBySentences chunk).length > 1 →
        splitLargeChunk chunk = trySplitBySentences chunk) ∧
    ((trySplitByHorizontalRules chunk).length ≤ 1 →
        (trySplitByParagraphs chunk).length ≤ 1 →
        ¬(chunk.type = ChunkType.code ∧ chunk.content.length > MAX_CODE_BLOCK_SIZE) →
        ¬(chunk.content.length > MAX_CHUNK_SIZE ∧ (trySplitBySentences chunk).length > 1) →
        splitLargeChunk chunk = splitByCharacterCount chunk) := by
  refine ⟨?_, ?_, ?_, ?_, ?_⟩
  · intro h1
    unfold splitLargeChunk
    rw [if_pos h1]
  · intro h1 h2
    unfold splitLargeChunk
    rw [if_neg (by omega), if_pos h2]
  · intro h1 h2 h3 h4
    unfold splitLargeChunk
    rw [if_neg (by omega), if_neg (by omega), if_pos ⟨h3, h4⟩]
  · intro h1 h2 h3 h4 h5
    unfold splitLargeChunk
    rw [if_neg (by omega), if_neg (by omega), if_neg h3, if_pos ⟨h4, h5⟩]
  · intro h1 h2 h3 h4
    unfold splitLargeChunk
    rw [if_neg (by omega), if_neg (by omega), if_neg h3, if_neg h4]

theorem C3_priority_order_amended_witness :
    splitLargeChunk ⟨ChunkType.paragraph, "hi".data, none⟩ =
      splitByCharacterCount ⟨ChunkType.paragraph, "hi".data, none⟩ :=
  (C3_priority_order_amended ⟨ChunkType.paragraph, "hi".data, none⟩).2.2.2.2
    (by decide) (by decide) (by decide) (by decide)

/-! ### Claim C5: a 5000-character fenced code block -/

/-- A 1660-character source line. -/
def A1660 : Str := List.replicate 1660 'a'

/-- A bare closing fence line. -/
def fence3 : Str := [btChar, btChar, btChar]

/-- The C5 scenario input: a fenced `typescript` block of 5000 characters
whose body is three 1660-character lines. -/
def C5cex : Str :=
  "```typescript".data ++ '\n' :: (A1660 ++ '\n' :: (A1660 ++ '\n' :: (A1660 ++ '\n' :: fence3)))

theorem mem_A1660 {c : Char} (h : c ∈ A1660) : c = 'a' := List.eq_of_mem_replicate h

theorem mem_C5cex {c : Char} (h : c ∈ C5cex) :
    c ∈ ("```typescript".data) ∨ c = '\n' ∨ c = 'a' ∨ c = btChar := by
  unfold C5cex at h
  rcases List.mem_append.mp h with h | h
  · exact Or.inl h
  · rcases List.mem_cons.mp h with h | h
    · exact Or.inr (Or.inl h)
    · rcases List.mem_append.mp h with h | h
      · exact Or.inr (Or.inr (Or.inl (mem_A1660 h)))
      · rcases List.mem_cons.mp h with h | h
        · exact Or.inr (Or.inl h)
        · rcases List.mem_append.mp h with h | h
          · exact Or.inr (Or.inr (Or.inl (mem_A1660 h)))
          · rcases List.mem_cons.mp h with h | h
            · exact Or.inr (Or.inl h)
            · rcases List.mem_append.mp h with h | h
              · exact Or.inr (Or.inr (Or.inl (mem_A1660 h)))
              · rcases List.mem_cons.mp h with h | h
                · exact Or.inr (Or.inl h)
                · refine Or.inr (Or.inr (Or.inr ?_))
                  unfold fence3 at h
                  rcases List.mem_cons.mp h with h | h
                  · exact h
                  · rcases List.mem_cons.mp h with h | h
                    · exact h
                    · rcases List.mem_cons.mp h with h | h
                      · exact h
                      · exact absurd h (by simp)

theorem not_mem_C5cex {c : Char} (h1 : c ∉ ("```typescript".data)) (h2 : c ≠ '\n')
    (h3 : c ≠ 'a') (h4 : c ≠ btChar) : c ∉ C5cex := by
  intro h
  rcases mem_C5cex h with h | h | h | h
  exacts [h1 h, h2 h, h3 h, h4 h]

theorem hasTriple_tail_false {x c : Char} {s : Str} (h : hasTriple x (c :: s) = false) :
    hasTriple x s = false := by
  cases ht : hasTriple x s
  · rfl
  · rw [hasTriple_cons ht] at h
    exact absurd h (by decide)

theorem hasTriple_cons_false {x c : Char} {y : Str} (hy : hasTriple x y = false)
    (hw : ¬(c = x ∧ y.head? = some x ∧ y.tail.head? = some x)) :
    hasTriple x (c :: y) = false := by
  match y, hy with
  | [], _ => rfl
  | [d], _ => rfl
  | d :: e :: r, hy =>
    rw [hasTriple, Bool.or_eq_false_iff]
    refine ⟨?_, hy⟩
    rw [decide_eq_false_iff_not]
    rintro ⟨h1, h2, h3⟩
    exact hw ⟨h1, by simp [h2], by simp [h3]⟩

theorem hasTriple_append_last {x : Char} (b : Str) (hb : hasTriple x b = false) :
    ∀ (n : Nat) (a : Str), a.length ≤ n → hasTriple x a = false →
      a.getLast? ≠ some x → hasTriple x (a ++ b) = false := by
  intro n
  induction n with
  | zero =>
    intro a hlen _ _
    have ha : a = [] := List.length_eq_zero.mp (Nat.le_zero.mp hlen)
    subst ha
    rw [List.nil_append]
    exact hb
  | succ n ih =>
    intro a hlen ha hlast
    match a, hlen, ha, hlast with
    | [], _, _, _ =>
      rw [List.nil_append]
      exact hb
    | [c], _, _, hlast =>
      have hcx : c ≠ x := by
        intro h
        exact hlast (by simp [h])
      rw [List.singleton_append]
      apply hasTriple_cons_false hb
      rintro ⟨h1, -, -⟩
      exact hcx h1
    | c :: d :: r, hlen, ha, hlast =>
      rw [List.cons_append]
      apply hasTriple_cons_false
      · exact ih (d :: r) (by simp only [List.length_cons] at hlen ⊢; omega)
          (hasTriple_tail_false ha)
          (by rw [List.getLast?_cons_cons] at hlast; exact hlast)
      · rintro ⟨h1, h2, h3⟩
        rw [show ((d :: r) ++ b).head? = some d from rfl] at h2
        injection h2 with h2
        cases r with
        | nil =>
          rw [List.getLast?_cons_cons] at hlast
          exact hlast (by simp [h2])
        | cons e r' =>
          rw [show ((d :: e :: r') ++ b).tail.head? = some e from rfl] at h3
          injection h3 with h3
          rw [hasTriple] at ha
          simp only [Bool.or_eq_false_iff, decide_eq_false_iff_not] at ha
          exact ha.1 ⟨h1, h2, h3⟩

theorem hasTriple_append_last' {x : Char} {a b : Str} (ha : hasTriple x a = false)
    (hb : hasTriple x b = false) (hlast : a.getLast? ≠ some x) :
    hasTriple x (a ++ b) = false :=
  hasTriple_append_last b hb a.length a (Nat.le_refl _) ha hlast

theorem A1660_getLast : A1660.getLast? = some 'a' := by
  have h : A1660.getLast? = A1660.reverse.head? := List.getLast?_eq_head?_reverse
  rw [h]
  unfold A1660
  rw [List.reverse_replicate, show (1660 : Nat) = 1659 + 1 from rfl, List.replicate_succ]
  rfl

theorem A1660_append_head (z : Str) : (A1660 ++ z).head? = some 'a' := by
  unfold A1660
  rw [show (1660 : Nat) = 1659 + 1 from rfl, List.replicate_succ]
  rfl

theorem hasTriple_nl_A1660 : hasTriple '\n' A1660 = false := by
  cases h : hasTriple '\n' A1660
  · rfl
  · exact absurd (mem_A1660 (hasTriple_mem h)) (by decide)

theorem C5cex_no_nl_triple : hasTriple '\n' C5cex = false := by
  have hcons : ∀ y : Str, hasTriple '\n' y = false → y.head? = some 'a' →
      hasTriple '\n' ('\n' :: y) = false := by
    intro y hy hh
    apply hasTriple_cons_false hy
    rintro ⟨-, h, -⟩
    rw [hh] at h
    exact absurd h (by decide)
  have hA : ∀ y : Str, hasTriple '\n' y = false → hasTriple '\n' (A1660 ++ y) = false := by
    intro y hy
    exact hasTriple_append_last' hasTriple_nl_A1660 hy (by rw [A1660_getLast]; simp)
  have h0 : hasTriple '\n' ('\n' :: fence3) = false := by decide
  have h1 := hA _ h0
  have h2 := hcons _ h1 (A1660_append_head _)
  have h3 := hA _ h2
  have h4 := hcons _ h3 (A1660_append_head _)
  have h5 := hA _ h4
  have h6 := hcons _ h5 (A1660_append_head _)
  unfold C5cex
  exact hasTriple_append_last' (by decide) h6 (by decide)

theorem getLast?_append_right {a b : Str} (hb : b ≠ []) :
    (a ++ b).getLast? = b.getLast? := by
  have h1 : (a ++ b).getLast? = (a ++ b).reverse.head? := List.getLast?_eq_head?_reverse
  have h2 : b.getLast? = b.reverse.head? := List.getLast?_eq_head?_reverse
  rw [h1, h2, List.reverse_append]
  cases hr : b.reverse with
  | nil => exact absurd (by simpa using congrArg List.reverse hr) hb
  | cons x t => rfl

theorem A1660_append_ne_nil (z : Str) : A1660 ++ z ≠ [] := by
  intro h
  have := congrArg List.length h
  simp only [List.length_append, List.length_nil] at this
  unfold A1660 at this
  rw [List.length_replicate] at this
  omega

theorem C5cex_getLast : C5cex.getLast? = some btChar := by
  unfold C5cex
  rw [getLast?_append_right (by simp),
    show ('\n' :: (A1660 ++ '\n' :: (A1660 ++ '\n' :: (A1660 ++ '\n' :: fence3)))) =
      ['\n'] ++ (A1660 ++ '\n' :: (A1660 ++ '\n' :: (A1660 ++ '\n' :: fence3))) from rfl,
    getLast?_append_right (A1660_append_ne_nil _),
    getLast?_append_right (by simp),
    show ('\n' :: (A1660 ++ '\n' :: (A1660 ++ '\n' :: fence3))) =
      ['\n'] ++ (A1660 ++ '\n' :: (A1660 ++ '\n' :: fence3)) from rfl,
    getLast?_append_right (A1660_append_ne_nil _),
    getLast?_append_right (by simp),
    show ('\n' :: (A1660 ++ '\n' :: fence3)) = ['\n'] ++ (A1660 ++ '\n' :: fence3) from rfl,
    getLast?_append_right (A1660_append_ne_nil _),
    getLast?_append_right (by simp),
    show ('\n' :: fence3) = ['\n'] ++ fence3 from rfl,
    getLast?_append_right (by unfold fence3; simp)]
  decide

theorem C5cex_head : C5cex.head? = some btChar := by
  unfold C5cex
  rw [show ("```typescript".data) = btChar :: ("``typescript".data) from by decide,
    List.cons_append]
  rfl

theorem C5cex_trim : trim C5cex = C5cex := by
  apply trim_eq_self
  · intro c hc
    rw [C5cex_head] at hc
    injection hc with hc
    rw [← hc]
    decide
  · intro c hc
    rw [C5cex_getLast] at hc
    injection hc with hc
    rw [← hc]
    decide

theorem C5cex_clean : cleanContentForDiscord C5cex = C5cex := by
  have h1 : hasTriple '-' C5cex = false := by
    cases h : hasTriple '-' C5cex
    · rfl
    · exact absurd (hasTriple_mem h)
        (not_mem_C5cex (by decide) (by decide) (by decide) (by decide))
  have h2 : ∀ l ∈ splitLines C5cex, l ≠ star3 := by
    intro l hl he
    have hstar : '*' ∈ C5cex := mem_line_of_mem_splitSep hl (by rw [he]; decide)
    exact absurd hstar (not_mem_C5cex (by decide) (by decide) (by decide) (by decide))
  have h4 : noTrailST C5cex = true := by
    apply noTrailST_of_no_st
    intro c hc hst
    have : c ∉ C5cex := by
      rcases hst with h | h <;> subst h <;>
        exact not_mem_C5cex (by decide) (by decide) (by decide) (by decide)
    exact this hc
  rw [clean_eq_trim h1 h2 C5cex_no_nl_triple h4, C5cex_trim]

theorem C5cex_length : C5cex.length = 5000 := by
  unfold C5cex A1660 fence3
  simp only [List.length_append, List.length_cons, List.length_replicate,
    show ("```typescript".data).length = 13 from by decide, List.length_nil]

theorem tryImg_not_bang {c : Char} (rest : Str) (h : c ≠ '!') : tryImg (c :: rest) = none := by
  unfold tryImg
  rw [if_neg (fun hp => h (by
    rw [show hasPre ['!', '['] (c :: rest) = (decide ('!' = c) && hasPre ['['] rest) from rfl,
      Bool.and_eq_true] at hp
    exact (of_decide_eq_true hp.1).symm))]

theorem imgMatchesGo_no_bang :
    ∀ (fuel : Nat) (s : Str), (∀ c ∈ s, c ≠ '!') → imgMatchesGo fuel s = [] := by
  intro fuel
  induction fuel with
  | zero => intro s _; rfl
  | succ fuel ih =>
    intro s h
    rw [imgMatchesGo.eq_def]
    cases s with
    | nil => rfl
    | cons c rest =>
      dsimp only
      rw [tryImg_not_bang rest (h c (by simp))]
      exact ih rest (fun d hd => h d (by simp [hd]))

theorem C5cex_lines :
    splitLines C5cex = ["```typescript".data, A1660, A1660, A1660, fence3] := by
  unfold splitLines C5cex
  rw [splitSep_append_cons (by decide),
    splitSep_append_cons (fun c hc => by rw [mem_A1660 hc]; decide),
    splitSep_append_cons (fun c hc => by rw [mem_A1660 hc]; decide),
    splitSep_append_cons (fun c hc => by rw [mem_A1660 hc]; decide),
    splitSep_no_sep (by decide)]

theorem A1660_head : A1660.head? = some 'a' := by
  unfold A1660
  rw [show (1660 : Nat) = 1659 + 1 from rfl, List.replicate_succ]
  rfl

theorem A1660_trim : trim A1660 = A1660 := by
  apply trim_eq_self
  · intro c hc
    rw [A1660_head] at hc
    injection hc with hc
    rw [← hc]
    decide
  · intro c hc
    rw [A1660_getLast] at hc
    injection hc with hc
    rw [← hc]
    decide

theorem A1660_length : A1660.length = 1660 := by
  unfold A1660
  rw [List.length_replicate]

theorem hasPre_fence_A1660 : hasPre ("```".data) A1660 = false := by
  unfold A1660
  rw [show (1660 : Nat) = 1659 + 1 from rfl, List.replicate_succ,
    show ("```".data) = btChar :: ("``".data) from by decide,
    show hasPre (btChar :: ("``".data)) ('a' :: List.replicate 1659 'a') =
      (decide (btChar = 'a') && hasPre ("``".data) (List.replicate 1659 'a')) from rfl,
    show decide (btChar = 'a') = false from by decide, Bool.false_and]

theorem textAtomsGo_open_step (line : Str) (rest : List Str) (lang : Str)
    (hp : hasPre ("```".data) (trim line) = true) :
    textAtomsGo (line :: rest) [] false lang =
      textAtomsGo rest (line ++ ['\n']) true ((trim line).drop 3) := by
  rw [textAtomsGo, if_pos hp]
  simp only [Bool.false_eq_true, if_false]
  rw [if_neg (show ¬(trim ([] : Str) ≠ []) from by decide), List.nil_append]

theorem textAtomsGo_code_step (line : Str) (rest : List Str) (cur lang : Str)
    (hf : hasPre ("```".data) (trim line) = false) :
    textAtomsGo (line :: rest) cur true lang =
      textAtomsGo rest (cur ++ line ++ ['\n']) true lang := by
  rw [textAtomsGo, if_neg (by rw [hf]; exact Bool.false_ne_true)]
  dsimp only
  rw [if_neg (by simp)]

theorem textAtomsGo_close_step (line : Str) (rest : List Str) (cur lang : Str)
    (hp : hasPre ("```".data) (trim line) = true) :
    textAtomsGo (line :: rest) cur true lang =
      ensureAtomicChunkSize ⟨ChunkType.code, trim (cur ++ line ++ ['\n']), some lang⟩ ++
        textAtomsGo rest [] false [] := by
  rw [textAtomsGo, if_pos hp, if_pos rfl]

def C5cur1 : Str := "```typescript".data ++ ['\n']
def C5cur2 : Str := C5cur1 ++ A1660 ++ ['\n']
def C5cur3 : Str := C5cur2 ++ A1660 ++ ['\n']
def C5cur4 : Str := C5cur3 ++ A1660 ++ ['\n']

theorem C5cex_textAtoms :
    textAtomsGo (splitLines C5cex) [] false [] =
      ensureAtomicChunkSize ⟨ChunkType.code, C5cex, some ("typescript".data)⟩ := by
  have hfA : hasPre ("```".data) (trim A1660) = false := by
    rw [A1660_trim]
    exact hasPre_fence_A1660
  rw [C5cex_lines, textAtomsGo_open_step _ _ _ (by decide),
    show (trim ("```typescript".data)).drop 3 = "typescript".data from by decide,
    show ("```typescript".data ++ ['\n'] : Str) = C5cur1 from rfl,
    textAtomsGo_code_step _ _ _ _ hfA,
    show (C5cur1 ++ A1660 ++ ['\n'] : Str) = C5cur2 from rfl,
    textAtomsGo_code_step _ _ _ _ hfA,
    show (C5cur2 ++ A1660 ++ ['\n'] : Str) = C5cur3 from rfl,
    textAtomsGo_code_step _ _ _ _ hfA,
    show (C5cur3 ++ A1660 ++ ['\n'] : Str) = C5cur4 from rfl,
    textAtomsGo_close_step _ _ _ _ (by decide),
    show textAtomsGo [] [] false [] = [] from by decide, List.append_nil]
  have hbig : C5cur4 ++ fence3 ++ ['\n'] = C5cex ++ ['\n'] := by
    unfold C5cur4 C5cur3 C5cur2 C5cur1 C5cex
    simp [List.append_assoc]
  rw [hbig, trim_append_ws (by intro c hc; rw [List.mem_singleton] at hc; subst hc; decide),
    C5cex_trim]

theorem C5_ensure :
    ensureAtomicChunkSize ⟨ChunkType.code, C5cex, some ("typescript".data)⟩ =
      splitLargeCodeBlock ⟨ChunkType.code, C5cex, some ("typescript".data)⟩ := by
  unfold ensureAtomicChunkSize
  rw [if_neg (by dsimp only; rw [C5cex_length]; decide), if_pos rfl]

theorem C5c1_length : ("```typescript".data ++ '\n' :: A1660).length = 1674 := by
  rw [List.length_append, show ('\n' :: A1660).length = 1661 from by
      rw [List.length_cons, A1660_length],
    show ("```typescript".data).length = 13 from by decide]

theorem C5c3_length : (A1660 ++ '\n' :: fence3).length = 1664 := by
  rw [List.length_append, A1660_length, show (('\n' :: fence3 : Str)).length = 4 from by decide]

theorem A1660_ne_nil : (A1660 : Str) ≠ [] := by
  intro h
  have h2 := congrArg List.length h
  rw [A1660_length, List.length_nil] at h2
  omega

theorem C5c1_ne_nil : ("```typescript".data ++ '\n' :: A1660 : Str) ≠ [] := by
  intro h
  have h2 := congrArg List.length h
  rw [C5c1_length, List.length_nil] at h2
  omega

theorem C5c3_ne_nil : (A1660 ++ '\n' :: fence3 : Str) ≠ [] := by
  intro h
  have h2 := congrArg List.length h
  rw [C5c3_length, List.length_nil] at h2
  omega

theorem C5_codeSplit :
    splitLargeCodeBlock ⟨ChunkType.code, C5cex, some ("typescript".data)⟩ =
      [⟨ChunkType.code, "```typescript".data ++ '\n' :: A1660, some ("typescript".data)⟩,
       ⟨ChunkType.code, A1660, some ("typescript".data)⟩,
       ⟨ChunkType.code, A1660 ++ '\n' :: fence3, some ("typescript".data)⟩] := by
  unfold splitLargeCodeBlock
  rw [if_neg (by simp)]
  try dsimp only
  rw [show (some ("typescript".data)).getD [] = "typescript".data from rfl, C5cex_lines]
  rw [codeBlockGo]
  try dsimp only
  rw [if_neg (show ¬(([] : Str) ≠ []) from by simp), List.nil_append,
    if_neg (show ¬(("```typescript".data).length > MAX_CODE_BLOCK_SIZE ∧ ([] : Str) ≠ [])
      from by simp)]
  rw [codeBlockGo]
  try dsimp only
  rw [if_pos (show ("```typescript".data : Str) ≠ [] from by decide)]
  rw [if_neg (show ¬(("```typescript".data ++ '\n' :: A1660).length > MAX_CODE_BLOCK_SIZE ∧
      ("```typescript".data : Str) ≠ []) from by
    rintro ⟨hgt, -⟩
    rw [C5c1_length] at hgt
    simp only [MAX_CODE_BLOCK_SIZE] at hgt
    omega)]
  rw [codeBlockGo]
  try dsimp only
  rw [if_pos C5c1_ne_nil]
  rw [if_pos (show (("```typescript".data ++ '\n' :: A1660) ++ '\n' :: A1660).length >
        MAX_CODE_BLOCK_SIZE ∧ ("```typescript".data ++ '\n' :: A1660 : Str) ≠ [] from
    ⟨by
      rw [List.length_append, C5c1_length, show ('\n' :: A1660).length = 1661 from by
        rw [List.length_cons, A1660_length]]
      simp only [MAX_CODE_BLOCK_SIZE]
      omega, C5c1_ne_nil⟩)]
  rw [codeBlockGo]
  try dsimp only
  rw [if_pos A1660_ne_nil]
  rw [if_pos (show (A1660 ++ '\n' :: A1660).length > MAX_CODE_BLOCK_SIZE ∧
      (A1660 : Str) ≠ [] from
    ⟨by
      rw [List.length_append, A1660_length, show ('\n' :: A1660).length = 1661 from by
        rw [List.length_cons, A1660_length]]
      simp only [MAX_CODE_BLOCK_SIZE]
      omega, A1660_ne_nil⟩)]
  rw [codeBlockGo]
  try dsimp only
  rw [if_pos A1660_ne_nil]
  rw [if_neg (show ¬((A1660 ++ '\n' :: fence3).length > MAX_CODE_BLOCK_SIZE ∧
      (A1660 : Str) ≠ []) from by
    rintro ⟨hgt, -⟩
    rw [C5c3_length] at hgt
    simp only [MAX_CODE_BLOCK_SIZE] at hgt
    omega)]
  rw [codeBlockGo]
  rw [if_pos C5c3_ne_nil]

theorem C5_recombine :
    optimalRecombine
      [⟨ChunkType.code, "```typescript".data ++ '\n' :: A1660, some ("typescript".data)⟩,
       ⟨ChunkType.code, A1660, some ("typescript".data)⟩,
       ⟨ChunkType.code, A1660 ++ '\n' :: fence3, some ("typescript".data)⟩] =
      [⟨ChunkType.code, "```typescript".data ++ '\n' :: A1660, some ("typescript".data)⟩,
       ⟨ChunkType.code, A1660, some ("typescript".data)⟩,
       ⟨ChunkType.code, A1660 ++ '\n' :: fence3, some ("typescript".data)⟩] := by
  unfold optimalRecombine
  rw [show ([⟨ChunkType.code, "```typescript".data ++ '\n' :: A1660, some ("typescript".data)⟩,
       ⟨ChunkType.code, A1660, some ("typescript".data)⟩,
       ⟨ChunkType.code, A1660 ++ '\n' :: fence3, some ("typescript".data)⟩] :
      List ContentChunk).length = 2 + 1 from rfl]
  rw [optimalRecombineGo_cons, if_neg (by simp)]
  rw [findGroupGo, if_neg (by simp)]
  try dsimp only
  rw [if_pos (by
    rw [List.length_append, show ('\n' :: '\n' :: A1660).length = 1662 from by
        rw [List.length_cons, List.length_cons, A1660_length], C5c1_length]
    simp only [MAX_CHUNK_SIZE]
    omega)]
  try dsimp only
  rw [optimalRecombineGo_cons, if_neg (by simp)]
  rw [findGroupGo, if_neg (by simp)]
  try dsimp only
  rw [if_pos (by
    rw [List.length_append, show ('\n' :: '\n' :: (A1660 ++ '\n' :: fence3)).length = 1666
        from by rw [List.length_cons, List.length_cons, C5c3_length], A1660_length]
    simp only [MAX_CHUNK_SIZE]
    omega)]
  try dsimp only
  rw [optimalRecombineGo_cons, if_neg (by simp)]
  rw [findGroupGo]
  try dsimp only
  rw [optimalRecombineGo_nil]

theorem splitContent_C5cex :
    splitContent C5cex none =
      [⟨ChunkType.code, "```typescript".data ++ '\n' :: A1660, some ("typescript".data)⟩,
       ⟨ChunkType.code, A1660, some ("typescript".data)⟩,
       ⟨ChunkType.code, A1660 ++ '\n' :: fence3, some ("typescript".data)⟩] := by
  unfold splitContent intelligentSplit
  rw [show resolveRelativeLinks C5cex none = C5cex from rfl, C5cex_clean]
  unfold splitIntoAtomicChunks
  rw [imageScanGo_no_match _ _ _ (by omega) (imgMatchesGo_no_bang _ _ (fun c hc he => by
    subst he
    exact (not_mem_C5cex (by decide) (by decide) (by decide) (by decide)) hc))]
  rw [List.nil_append, C5cex_trim, if_pos (by
    intro h
    have := congrArg List.length h
    rw [C5cex_length, List.length_nil] at this
    omega)]
  unfold splitTextIntoAtomicChunks
  rw [C5cex_textAtoms, C5_ensure, C5_codeSplit]
  exact C5_recombine

theorem C5c1_fences : countFences ("```typescript".data ++ '\n' :: A1660) = 1 := by
  rw [show ("```typescript".data) = [btChar, btChar, btChar] ++ ("typescript".data) from by
    decide, List.append_assoc,
    show ([btChar, btChar, btChar] ++ ("typescript".data ++ '\n' :: A1660) : Str) =
      btChar :: btChar :: btChar :: ("typescript".data ++ '\n' :: A1660) from rfl,
    countFences, if_pos ⟨rfl, rfl, rfl⟩,
    countFences_eq_zero (by
      intro c hc
      rcases List.mem_append.mp hc with h | h
      · intro he
        subst he
        revert h
        decide
      · rcases List.mem_cons.mp h with h | h
        · subst h; decide
        · rw [mem_A1660 h]; decide)]

theorem C5c2_fences : countFences A1660 = 0 :=
  countFences_eq_zero (fun c hc => by rw [mem_A1660 hc]; decide)

theorem C5c3_fences : countFences (A1660 ++ '\n' :: fence3) = 1 := by
  rw [show (A1660 ++ '\n' :: fence3 : Str) = (A1660 ++ ['\n']) ++ fence3 from by
      rw [List.append_assoc]; rfl,
    countFences_nb_append _ (by
      intro c hc
      rcases List.mem_append.mp hc with h | h
      · rw [mem_A1660 h]; decide
      · rw [List.mem_singleton] at h; subst h; decide)]
  decide

theorem codeBlockGo_language :
    ∀ (lines : List Str) (language cur : Str) {c : ContentChunk},
      c ∈ codeBlockGo language cur lines → c.language = some language := by
  intro lines
  induction lines with
  | nil =>
    intro language cur c hc
    rw [codeBlockGo] at hc
    by_cases h : cur ≠ []
    · rw [if_pos h, List.mem_singleton] at hc
      subst hc
      rfl
    · rw [if_neg h] at hc
      exact absurd hc (by simp)
  | cons line rest ih =>
    intro language cur c hc
    rw [codeBlockGo] at hc
    by_cases h : (cur ++ if cur ≠ [] then '\n' :: line else line).length >
        MAX_CODE_BLOCK_SIZE ∧ cur ≠ []
    · rw [if_pos h] at hc
      rcases List.mem_cons.mp hc with hc | hc
      · subst hc
        rfl
      · exact ih _ _ hc
    · rw [if_neg h] at hc
      exact ih _ _ hc

/-- C5 counterexample: on a 5000-character fenced `typescript` block whose
body is three 1660-character lines, `splitContent` returns three code chunks
of 1674, 1660 and 1664 characters, each tagged `typescript` — but the first
and last chunks contain exactly one fence marker each: the line splitter
never inserts fresh opening or closing fences, so the pieces are not
individually fence-balanced. -/
theorem C5_code_block_counterexample :
    C5cex.length = 5000 ∧
    (splitContent C5cex none).map
        (fun c => (c.type, c.content.length, countFences c.content, c.language)) =
      [(ChunkType.code, 1674, 1, some ("typescript".data)),
       (ChunkType.code, 1660, 0, some ("typescript".data)),
       (ChunkType.code, 1664, 1, some ("typescript".data))] := by
  refine ⟨C5cex_length, ?_⟩
  rw [splitContent_C5cex]
  simp only [List.map_cons, List.map_nil]
  rw [C5c1_length, C5c1_fences, A1660_length, C5c2_fences, C5c3_length, C5c3_fences]

/-- C5 (amended): on the 5000-character three-line fenced `typescript` block,
`splitContent` returns three chunks, all of kind `code`, all within the
1900-character code ceiling and all tagged `language: typescript`, with fence
counts 1, 0, 1 — the two original fence markers stay in the first and last
pieces and no fresh fences are inserted, so interior pieces have no fence at
all; and in general every piece the code-block line splitter returns is a
code chunk tagged with the original language whose content is within 1900
characters unless it is a single longer source line.  The claimed per-piece
fence balance is refuted by `C5_code_block_counterexample`. -/
theorem C5_code_block_amended :
    ((splitContent C5cex none).map (fun c => (c.type, c.language)) =
      [(ChunkType.code, some ("typescript".data)), (ChunkType.code, some ("typescript".data)),
       (ChunkType.code, some ("typescript".data))] ∧
     (∀ c ∈ splitContent C5cex none, c.content.length ≤ 1900) ∧
     (splitContent C5cex none).map (fun c => countFences c.content) = [1, 0, 1]) ∧
    ∀ (chunk : ContentChunk), chunk.type = ChunkType.code →
      ∀ c ∈ splitLargeCodeBlock chunk,
        c.type = ChunkType.code ∧ (c.content.length ≤ 1900 ∨ '\n' ∉ c.content) ∧
        c.language = some (chunk.language.getD []) := by
  constructor
  · refine ⟨?_, ?_, ?_⟩
    · rw [splitContent_C5cex]
      rfl
    · intro c hc
      rw [splitContent_C5cex] at hc
      rcases List.mem_cons.mp hc with hc | hc
      · subst hc
        show ("```typescript".data ++ '\n' :: A1660).length ≤ 1900
        rw [C5c1_length]
        omega
      rcases List.mem_cons.mp hc with hc | hc
      · subst hc
        show A1660.length ≤ 1900
        rw [A1660_length]
        omega
      rcases List.mem_cons.mp hc with hc | hc
      · subst hc
        show (A1660 ++ '\n' :: fence3).length ≤ 1900
        rw [C5c3_length]
        omega
      · exact absurd hc (by simp)
    · rw [splitContent_C5cex]
      simp only [List.map_cons, List.map_nil]
      rw [C5c1_fences, C5c2_fences, C5c3_fences]
  · intro chunk hty c hc
    have hb := splitLargeCodeBlock_bounds_code hty hc
    refine ⟨hb.2, hb.1, ?_⟩
    unfold splitLargeCodeBlock at hc
    rw [if_neg (by simp [hty])] at hc
    exact codeBlockGo_language _ _ _ hc

theorem C5_code_block_amended_witness :
    ((⟨ChunkType.code, "ab".data, some ("ts".data)⟩ : ContentChunk).type = ChunkType.code) ∧
    ((⟨ChunkType.code, "ab".data, some ("ts".data)⟩ : ContentChunk) ∈
      splitLargeCodeBlock ⟨ChunkType.code, "ab".data, some ("ts".data)⟩) ∧
    ((⟨ChunkType.code, "ab".data, some ("ts".data)⟩ : ContentChunk).type = ChunkType.code ∧
      ((⟨ChunkType.code, "ab".data, some ("ts".data)⟩ : ContentChunk).content.length ≤ 1900 ∨
        '\n' ∉ (⟨ChunkType.code, "ab".data, some ("ts".data)⟩ : ContentChunk).content) ∧
      (⟨ChunkType.code, "ab".data, some ("ts".data)⟩ : ContentChunk).language =
        some ((⟨ChunkType.code, "ab".data, some ("ts".data)⟩ : ContentChunk).language.getD [])) :=
  ⟨rfl, by decide, C5_code_block_amended.2 _ rfl _ (by decide)⟩

/-! ### Claim C8: frontmatter removal is not anchored to the document start -/

/-- C8: the frontmatter regex carries the multiline flag, so on the input
`x\n---\na\n---\nb` — whose first line is not a frontmatter delimiter — the
sanitizer removes the `---`-delimited region in the middle of the document,
yielding `x\nb` instead of leaving the text unchanged. -/
theorem C8_frontmatter_removed_mid_document :
    cleanContentForDiscord ("x\n---\na\n---\nb".data) = "x\nb".data := by decide

/-! ### Concrete counterexamples for claims C2, C4, C6 and C9 -/

/-- C2 counterexample: on the input `x‌```‌` (a paragraph with a single fence
marker in mid-line) the only output chunk contains an odd number of fence
markers, so not every chunk has an even fence count. -/
theorem C2_fence_balance_counterexample :
    (splitContent ("x```".data) none).map (fun c => (c.type, countFences c.content)) =
      [(ChunkType.paragraph, 1)] := by decide

/-- C4 counterexample: on `a\n \n \nb` the sanitizer first turns the
whitespace-only lines into empty lines (producing `a\n\n\nb`), and only a
second application collapses the newly adjacent newlines, so
`sanitize (sanitize x) ≠ sanitize x`. -/
theorem C4_sanitize_not_idempotent_counterexample :
    cleanContentForDiscord (cleanContentForDiscord ("a\n \n \nb".data)) ≠
      cleanContentForDiscord ("a\n \n \nb".data) := by decide

/-- C6 counterexample: the input `---\n![a](u)\n---\nhello` contains exactly
one image reference, but the sanitizer removes the `---`-delimited block
around it before splitting, so the output contains no image chunk at all. -/
theorem C6_image_count_counterexample :
    imgMatches ("---\n![a](u)\n---\nhello".data) = ["![a](u)".data] ∧
    (splitContent ("---\n![a](u)\n---\nhello".data) none).filter
      (fun c => c.type = ChunkType.image) = [] := by decide

/-- C9 counterexample: the document `‌```‌\nhello\n‌```‌` sanitizes to itself —
nonempty, under 2000 characters, and with no image reference — yet
`splitContent` returns one chunk of kind `code`, not `paragraph`. -/
theorem C9_single_chunk_kind_counterexample :
    (cleanContentForDiscord (resolveRelativeLinks ("```\nhello\n```".data) none) ≠ [] ∧
     (cleanContentForDiscord (resolveRelativeLinks ("```\nhello\n```".data) none)).length < 2000 ∧
     imgMatches (cleanContentForDiscord (resolveRelativeLinks ("```\nhello\n```".data) none)) = []) ∧
    (splitContent ("```\nhello\n```".data) none).map (fun c => c.type) = [ChunkType.code] := by
  decide

end ContentSplitter
